import Mathlib

/-!
The pairing engine of coffee_roulette.

A shallow embedding of `coffee_roulette.go`: the backtracking matcher `Match`,
the rotation generator `QuickMatch` and the history updater `AddToHistory`,
together with the properties of these functions.

Go maps are modelled by `Finmap` (finite maps with unique keys, no order and
extensional equality). A participant is a Go `string`; the functions use
participants only through equality, so the embedding is generic in a type `α`
with decidable equality. A `time.Time` is an arbitrary type `τ`. Maps are
modelled by value, and the inner maps of a history are not shared between two
participants. A read of a nil map finds nothing, like a read of an empty map, so
`Match`, which only reads the history, takes the contents of the history. A
write to a nil map panics: `AddToHistoryGo` is `AddToHistory` on histories that
may be nil or hold nil inner maps, with the panic as a result, and
`AddToHistory` is the same loop on allocated maps, where it returns.
-/

namespace CoffeeRoulette

/-- The Go type `map[string]string`: a matching under construction or finished. -/
abbrev Result (α : Type) : Type := Finmap (fun _ : α => α)

/-- The contents of a Go value of type `History`,
`map[string]map[string]time.Time`: what the reads of the history find. -/
abbrev History (α τ : Type) : Type := Finmap (fun _ : α => Finmap (fun _ : α => τ))

/-- A Go value of type `map[string]time.Time` with its nil value: `none` is the
nil map, which reads as an empty map and panics on a write. -/
abbrev GoInner (α τ : Type) : Type := Option (Finmap (fun _ : α => τ))

/-- A Go value of type `History` with its nil values: the history itself and each
of its inner maps is either nil (`none`) or an allocated map. `ReadHistory`
returns the nil history for an empty file. -/
abbrev GoHistory (α τ : Type) : Type := Option (Finmap (fun _ : α => GoInner α τ))

/-- The two errors of the program: `oddError n`, which formats the number `n`
into its message, and `ErrNoSolution`. -/
inductive MatchError where
  | oddError (n : Nat)
  | ErrNoSolution
  deriving DecidableEq, Repr

deriving instance DecidableEq for Except

/-- What a call of `Match` leaves behind: the returned pair `(map, error)` as
`ret`, and the contents of the caller-supplied `result` map after the call. -/
structure Outcome (α : Type) where
  ret : Except MatchError (Result α)
  container : Result α
  deriving DecidableEq

section Defs

variable {α τ : Type} [DecidableEq α]

/-- The test `if pHist, ok := history[p]; ok { if _, ok := pHist[q]; ok {...} }`
of `Match`: `q` is a key of `history[p]`. -/
def wasMatched (history : History α τ) (p q : α) : Bool :=
  match history.lookup p with
  | some pHist => decide (q ∈ pHist)
  | none => false

/-- The inner loop `for _, q := range people` of `Match` for a fixed `p`, run
over the remaining candidates, followed by the `return nil, ErrNoSolution`
after it. `recurse` is the recursive call `Match(people, history, result)`;
`none` means that the recursion ran out of fuel. -/
def matchInner (recurse : Result α → Option (Outcome α)) (history : History α τ) (p : α) :
    List α → Result α → Option (Outcome α)
  | [], result => some ⟨.error .ErrNoSolution, result⟩
  | q :: qs, result =>
    if q ∈ result then matchInner recurse history p qs result
    else if p = q then matchInner recurse history p qs result
    else if wasMatched history p q then matchInner recurse history p qs result
    else
      match recurse ((result.insert p q).insert q p) with
      | none => none
      | some out =>
        match out.ret with
        | .ok sol => some ⟨.ok sol, out.container⟩
        | .error _ => matchInner recurse history p qs ((out.container.erase p).erase q)

/-- The outer loop `for _, p := range people` of `Match`, run over the remaining
participants: a matched `p` is skipped, the first unmatched `p` runs the inner
loop over all of `people` and returns; the final `return nil, ErrNoSolution`
when the loop ends. -/
def matchOuter (recurse : Result α → Option (Outcome α)) (history : History α τ)
    (people : List α) : List α → Result α → Option (Outcome α)
  | [], result => some ⟨.error .ErrNoSolution, result⟩
  | p :: ps, result =>
    if p ∈ result then matchOuter recurse history people ps result
    else matchInner recurse history p people result

/-- The function `Match` with a bound `fuel` on the depth of the recursion;
`none` when the bound is reached. -/
def MatchFuel (people : List α) (history : History α τ) :
    Nat → Result α → Option (Outcome α)
  | 0, _ => none
  | fuel + 1, result =>
    if people.length = result.keys.card then some ⟨.ok result, result⟩
    else if people.length % 2 ≠ 0 then some ⟨.error (.oddError (people.length % 2)), result⟩
    else matchOuter (MatchFuel people history fuel) history people people result

/-- The function `Match`. Every recursive call has two more of the participants
matched, so `people.length + 1` levels are enough (`Match_isSome`). -/
def Match (people : List α) (history : History α τ) (result : Result α) :
    Option (Outcome α) :=
  MatchFuel people history (people.length + 1) result

/-- The loop `for i, p := range people` of `QuickMatch` for the offset `n`, run
from position `i` over the remaining participants, on the map `pair`. The
index `(i + n) % len(people)` is in range whenever the body runs, because the
body runs only for a non-empty `people`. -/
def quickPairs (people : List α) (n : Nat) : Nat → List α → Result α → Result α
  | _, [], pair => pair
  | i, p :: ps, pair =>
    if h : 0 < people.length then
      let j := (i + n) % people.length
      let q := people.get ⟨j, Nat.mod_lt _ h⟩
      if p ∈ pair then quickPairs people n (i + 1) ps pair
      else if q ∈ pair then quickPairs people n (i + 1) ps pair
      else quickPairs people n (i + 1) ps ((pair.insert p q).insert q p)
    else pair

/-- The function `QuickMatch`: one map per offset `n = 1, ..., len(people) - 1`,
in this order. -/
def QuickMatch (people : List α) : Except MatchError (List (Result α)) :=
  if people.length % 2 ≠ 0 then .error (.oddError people.length)
  else .ok ((List.range' 1 (people.length - 1)).map
    (fun n => quickPairs people n 0 people ∅))

/-- The body of the loop of `AddToHistory` for one entry `key, val` of `result`,
with the panics of Go on nil maps; `none` is a panic. `keyHist, ok := history[key]`
finds nothing in a nil history, and then `history[key] = keyHist` panics; for an
allocated history a missing `history[key]` is created, and `keyHist[val] = now`
panics when `history[key]` is a nil map. -/
def addEntryGo (now : τ) (history : GoHistory α τ) (key val : α) : Option (GoHistory α τ) :=
  match history with
  | none => none
  | some h =>
    match h.lookup key with
    | none => some (some (h.insert key (some ((∅ : Finmap (fun _ : α => τ)).insert val now))))
    | some none => none
    | some (some keyHist) => some (some (h.insert key (some (keyHist.insert val now))))

/-- The value read at a key of a history is a nil inner map. -/
def isNilEntry (v : Option (GoInner α τ)) : Bool :=
  match v with
  | some none => true
  | _ => false

/-- The function `AddToHistory` with the panics of Go on nil maps; `none` is a
panic. Go ranges over `result` in an unspecified order; the fold is over the
unordered entries of the map, which is well defined because two steps of the
loop commute, a panic included. -/
def AddToHistoryGo (history : GoHistory α τ) (result : Result α) (now : τ) :
    Option (GoHistory α τ) :=
  Finmap.foldl (fun d key val => d.bind (fun h => addEntryGo now h key val))
    (by
      intro d a₁ b₁ a₂ b₂
      cases d with
      | none => rfl
      | some history =>
        cases history with
        | none => rfl
        | some h =>
          have key : ∀ (g : Finmap (fun _ : α => GoInner α τ)) (k v : α),
              addEntryGo now (some g) k v =
                if isNilEntry (g.lookup k) = true then none
                else some (some (g.insert k
                  (some (((g.lookup k).join.getD ∅).insert v now)))) := by
            intro g k v
            unfold addEntryGo
            cases hk : g.lookup k with
            | none => simp only [hk]; rfl
            | some inner =>
              cases inner with
              | none => simp only [hk]; rfl
              | some m => simp only [hk]; rfl
          have step : ∀ (g : Finmap (fun _ : α => GoInner α τ)) (k v k2 v2 : α),
              ((addEntryGo now (some g) k v).bind fun h2 => addEntryGo now h2 k2 v2) =
                if isNilEntry (g.lookup k) = true then none
                else addEntryGo now (some (g.insert k
                  (some (((g.lookup k).join.getD ∅).insert v now)))) k2 v2 := by
            intro g k v k2 v2
            rw [key g k v]
            by_cases c : isNilEntry (g.lookup k) = true
            · rw [if_pos c, if_pos c]; rfl
            · rw [if_neg c, if_neg c]; rfl
          have hnil : ∀ (m : Finmap (fun _ : α => τ)) (x y : Option (GoHistory α τ)),
              (if isNilEntry (some (some m) : Option (GoInner α τ)) = true then x else y) = y :=
            fun _ _ _ => rfl
          have hjoin : ∀ m : Finmap (fun _ : α => τ),
              (some (some m) : Option (GoInner α τ)).join.getD ∅ = m := fun _ => rfl
          show ((addEntryGo now (some h) a₁ b₁).bind fun h2 => addEntryGo now h2 a₂ b₂) =
            ((addEntryGo now (some h) a₂ b₂).bind fun h2 => addEntryGo now h2 a₁ b₁)
          rw [step, step]
          by_cases h12 : a₁ = a₂
          · subst h12
            by_cases c : isNilEntry (h.lookup a₁) = true
            · simp only [if_pos c]
            · simp only [if_neg c, key, Finmap.lookup_insert, hnil, hjoin, Finmap.insert_insert]
              by_cases hb : b₁ = b₂
              · subst hb; rfl
              · rw [Finmap.insert_insert_of_ne _ hb]
          · have h21 : a₂ ≠ a₁ := fun e => h12 e.symm
            simp only [key, Finmap.lookup_insert_of_ne _ h21, Finmap.lookup_insert_of_ne _ h12]
            by_cases c1 : isNilEntry (h.lookup a₁) = true
            · simp only [if_pos c1]
              by_cases c2 : isNilEntry (h.lookup a₂) = true
              · simp only [if_pos c2]
              · simp only [if_neg c2]
            · simp only [if_neg c1]
              by_cases c2 : isNilEntry (h.lookup a₂) = true
              · simp only [if_pos c2]
              · simp only [if_neg c2]
                rw [Finmap.insert_insert_of_ne _ h12])
    (some history) result

/-- The body of the loop of `AddToHistory` on allocated maps, where Go does not
panic: the map `history[key]` is created when it is missing, then
`keyHist[val] = now`. A value of type `History` stands for a history that is
allocated; `addEntryGo` is the same body with the nil maps. -/
def addEntry (now : τ) (history : History α τ) (key val : α) : History α τ :=
  match history.lookup key with
  | some keyHist => history.insert key (keyHist.insert val now)
  | none => history.insert key ((∅ : Finmap (fun _ : α => τ)).insert val now)

/-- The function `AddToHistory` on allocated maps, where Go does not panic. Go
ranges over `result` in an unspecified order; the fold is over the unordered
entries of the map, which is well defined because two steps of the loop commute.
`AddToHistoryGo` is the same function with the nil maps, and returns what this
one returns whenever it returns (`AddToHistoryGo_of_reads`). -/
def AddToHistory (history : History α τ) (result : Result α) (now : τ) : History α τ :=
  Finmap.foldl (addEntry now)
    (by
      intro d a₁ b₁ a₂ b₂
      have key : ∀ (h : History α τ) (k v x : α),
          (addEntry now h k v).lookup x =
            if x = k then some (((h.lookup k).getD ∅).insert v now) else h.lookup x := by
        intro h k v x
        unfold addEntry
        by_cases hx : x = k
        · subst hx
          cases hk : h.lookup x <;> simp [Finmap.lookup_insert]
        · cases hk : h.lookup k <;> simp [Finmap.lookup_insert_of_ne _ hx, hx]
      apply Finmap.ext_lookup
      intro x
      by_cases h12 : a₁ = a₂
      · subst h12
        by_cases hx : x = a₁
        · subst hx
          simp only [key, if_true, Option.getD_some, Option.some.injEq]
          by_cases hb : b₁ = b₂
          · subst hb; rfl
          · exact Finmap.insert_insert_of_ne _ hb
        · simp [key, hx]
      · by_cases hx1 : x = a₁
        · subst hx1
          have h21 : ¬ a₂ = x := fun h => h12 h.symm
          simp [key, h12, h21]
        · by_cases hx2 : x = a₂
          · subst hx2
            simp [key, h12, hx1]
          · simp [key, hx1, hx2])
    history result

/-- The candidate test of the inner loop: `q` is tried as a partner of `p`. -/
def isCandidate (history : History α τ) (result : Result α) (p q : α) : Bool :=
  decide (q ∉ result) && decide (p ≠ q) && !wasMatched history p q

/-- The contract of a call on the container: a failed call leaves the container
as it was, a successful call returns the container itself. -/
def Restores (recurse : Result α → Option (Outcome α)) : Prop :=
  ∀ r out, recurse r = some out →
    (∀ e, out.ret = .error e → out.container = r) ∧
    (∀ sol, out.ret = .ok sol → out.container = sol)

/-- The number of positions of `people` that hold a participant without an entry
in `r`: the measure of the recursion of `Match`. -/
def unmatched (people : List α) (r : Result α) : Nat :=
  people.countP (fun x => decide (x ∉ r))

/-- The pair was recorded in the direction from `p`: `q` is a key of `history[p]`. -/
def Recorded (history : History α τ) (p q : α) : Prop :=
  ∃ pHist, history.lookup p = some pHist ∧ q ∈ pHist

/-- The invariant of the container during the search: every key is a participant,
nobody is paired with themselves, and the pairs are entered in both directions. -/
structure PairedIn (people : List α) (r : Result α) : Prop where
  mem : ∀ k v, r.lookup k = some v → k ∈ people
  ne : ∀ k v, r.lookup k = some v → v ≠ k
  symm : ∀ k v, r.lookup k = some v → r.lookup v = some k

/-- The history constraint that the search checks: a pair of `r`, read from the
participant that comes first in `people` to the one that comes later, is not
recorded in `history`. -/
def FreshForward (people : List α) (history : History α τ) (r : Result α) : Prop :=
  ∀ k v, r.lookup k = some v → people.indexOf k < people.indexOf v → ¬ Recorded history k v

/-- A perfect matching over `people`: one entry per participant, no self-pairs,
symmetric. -/
structure IsPerfectMatching (people : List α) (M : Result α) : Prop where
  keys : ∀ p, p ∈ M ↔ p ∈ people
  ne : ∀ p q, M.lookup p = some q → q ≠ p
  symm : ∀ p q, M.lookup p = some q → M.lookup q = some p

/-- No pair of `M`, read in either direction, is recorded in `history`. -/
def NoRepeat (history : History α τ) (M : Result α) : Prop :=
  ∀ p q, M.lookup p = some q → ¬ Recorded history p q

/-- The contract of a call on a container that satisfies the invariant: a
returned solution satisfies it too, has one entry per position of `people`, and
keeps the entries of the container. -/
def SoundRec (people : List α) (history : History α τ)
    (recurse : Result α → Option (Outcome α)) : Prop :=
  ∀ r out sol, PairedIn people r → FreshForward people history r → recurse r = some out →
    out.ret = .ok sol →
    PairedIn people sol ∧ FreshForward people history sol ∧ people.length = sol.keys.card ∧
      (∀ k v, r.lookup k = some v → sol.lookup k = some v)

/-- The matching that pairs `a` with `b`, entered as `Match` enters it. -/
def pairAB : Result String := ((∅ : Result String).insert "a" "b").insert "b" "a"

/-- A history that records the pair of `a` and `b` in one direction only:
`b: {a: 0}`. -/
def historyBA : History String Nat :=
  (∅ : History String Nat).insert "b" (Finmap.singleton "a" 0)

/-- A history that records the pair of `a` and `b` in both directions. -/
def historyAB : History String Nat :=
  ((∅ : History String Nat).insert "a" (Finmap.singleton "b" 0)).insert "b"
    (Finmap.singleton "a" 0)

/-- Six distinct participants. -/
def sixPeople : List String := ["a", "b", "c", "d", "e", "f"]

/-- The matching that pairs `a` with `c`, as a result of an earlier round. -/
def pairAC : Result String := ((∅ : Result String).insert "a" "c").insert "c" "a"

/-- A history over `a`, `b`, `c`, `d` that leaves `a` only the partner `b` and then
leaves `c` no partner: every branch of the search fails. -/
def historyBlocked : History String Nat :=
  ((∅ : History String Nat).insert "a" ((Finmap.singleton "c" 0).insert "d" 0)).insert "c"
    (Finmap.singleton "d" 0)

/-- The nested lookup `history[p][q]`: the time recorded for the pair in the
direction from `p`, if there is one. -/
def timeOf (history : History α τ) (p q : α) : Option τ :=
  match history.lookup p with
  | some pHist => pHist.lookup q
  | none => none

/-- A history that records the pairs of `a` with `b` and of `c` with `d`, each in
both directions, at time 1. -/
def historyABCD : History String Nat :=
  ((((∅ : History String Nat).insert "a" (Finmap.singleton "b" 1)).insert "b"
    (Finmap.singleton "a" 1)).insert "c" (Finmap.singleton "d" 1)).insert "d"
    (Finmap.singleton "c" 1)

/-- A container with one entry. -/
def oneEntry : Result String := (∅ : Result String).insert "a" "b"

/-- The matching that pairs `a` with `b` and `c` with `d`, entered as `Match`
enters it. -/
def pairABCD : Result String :=
  ((((∅ : Result String).insert "a" "b").insert "b" "a").insert "c" "d").insert "d" "c"

/-- The matching that pairs `a` with `c` and `b` with `d`, entered as `Match`
enters it. -/
def pairACBD : Result String :=
  ((((∅ : Result String).insert "a" "c").insert "c" "a").insert "b" "d").insert "d" "b"

/-- The pair of `x` and `y` is a pair of the rotation by `n`: one of them is at
some position `i` of `people` and the other at position `(i + n) % len(people)`. -/
def IsRotationPair (people : List α) (n : Nat) (x y : α) : Prop :=
  ∃ i, i < people.length ∧
    ((people[i]? = some x ∧ people[(i + n) % people.length]? = some y) ∨
      (people[i]? = some y ∧ people[(i + n) % people.length]? = some x))

/-- The allocated history `g`, whose inner maps may be nil, reads as the history
`H`: the same keys, and at each key the same inner map, a nil inner map reading
as an empty map. -/
def Reads (g : Finmap (fun _ : α => GoInner α τ)) (H : History α τ) : Prop :=
  ∀ x, H.lookup x = (g.lookup x).map (fun m => m.getD ∅)

end Defs

section Lemmas

variable {α τ : Type} [DecidableEq α]

/-- Deleting the two keys of a freshly added pair gives the map back. -/
theorem erase_pair (r : Result α) {p q : α} (hp : p ∉ r) (hq : q ∉ r) :
    (((r.insert p q).insert q p).erase p).erase q = r := by
  apply Finmap.ext_lookup
  intro x
  by_cases hxq : x = q
  · subst hxq
    rw [Finmap.lookup_erase]
    exact (Finmap.lookup_eq_none.mpr hq).symm
  · rw [Finmap.lookup_erase_ne hxq]
    by_cases hxp : x = p
    · subst hxp
      rw [Finmap.lookup_erase]
      exact (Finmap.lookup_eq_none.mpr hp).symm
    · rw [Finmap.lookup_erase_ne hxp, Finmap.lookup_insert_of_ne _ hxq,
        Finmap.lookup_insert_of_ne _ hxp]

theorem matchInner_nil (recurse : Result α → Option (Outcome α)) (history : History α τ)
    (p : α) (result : Result α) :
    matchInner recurse history p [] result = some ⟨.error .ErrNoSolution, result⟩ := rfl

theorem matchInner_skip (recurse : Result α → Option (Outcome α)) (history : History α τ)
    (p q : α) (qs : List α) (result : Result α)
    (h : isCandidate history result p q = false) :
    matchInner recurse history p (q :: qs) result = matchInner recurse history p qs result := by
  rw [matchInner]
  by_cases h1 : q ∈ result
  · simp [h1]
  · by_cases h2 : p = q
    · simp [h1, h2]
    · have h3 : wasMatched history p q = true := by
        simpa [isCandidate, h1, h2] using h
      simp [h1, h2, h3]

theorem matchInner_try (recurse : Result α → Option (Outcome α)) (history : History α τ)
    (p q : α) (qs : List α) (result : Result α)
    (h : isCandidate history result p q = true) :
    matchInner recurse history p (q :: qs) result =
      match recurse ((result.insert p q).insert q p) with
      | none => none
      | some out =>
        match out.ret with
        | .ok sol => some ⟨.ok sol, out.container⟩
        | .error _ => matchInner recurse history p qs ((out.container.erase p).erase q) := by
  have h' : q ∉ result ∧ p ≠ q ∧ wasMatched history p q = false := by
    simpa [isCandidate, and_assoc] using h
  rw [matchInner]
  simp [h'.1, h'.2.1, h'.2.2]

theorem matchInner_restores {recurse : Result α → Option (Outcome α)} (hrec : Restores recurse)
    (history : History α τ) (p : α) (qs : List α) :
    ∀ (result : Result α) (out : Outcome α), p ∉ result →
      matchInner recurse history p qs result = some out →
      (∀ e, out.ret = .error e → out.container = result) ∧
      (∀ sol, out.ret = .ok sol → out.container = sol) := by
  induction qs with
  | nil =>
    intro result out _ h
    rw [matchInner_nil] at h
    cases h
    exact ⟨fun _ _ => rfl, fun sol hs => by cases hs⟩
  | cons q qs ih =>
    intro result out hp h
    cases hc : isCandidate history result p q with
    | false =>
      rw [matchInner_skip _ _ _ _ _ _ hc] at h
      exact ih result out hp h
    | true =>
      rw [matchInner_try _ _ _ _ _ _ hc] at h
      have hc' : q ∉ result ∧ p ≠ q ∧ wasMatched history p q = false := by
        simpa [isCandidate, and_assoc] using hc
      cases hr : recurse ((result.insert p q).insert q p) with
      | none => rw [hr] at h; cases h
      | some o =>
        rw [hr] at h
        cases hret : o.ret with
        | ok sol =>
          simp only [hret] at h
          cases h
          refine ⟨fun e he => (by cases he), fun sol2 hs => ?_⟩
          cases hs
          exact (hrec _ _ hr).2 _ hret
        | error e =>
          simp only [hret] at h
          have hcont := (hrec _ _ hr).1 _ hret
          rw [hcont, erase_pair result hp hc'.1] at h
          exact ih result out hp h

theorem matchOuter_restores {recurse : Result α → Option (Outcome α)} (hrec : Restores recurse)
    (history : History α τ) (people : List α) (ps : List α) :
    ∀ (result : Result α) (out : Outcome α),
      matchOuter recurse history people ps result = some out →
      (∀ e, out.ret = .error e → out.container = result) ∧
      (∀ sol, out.ret = .ok sol → out.container = sol) := by
  induction ps with
  | nil =>
    intro result out h
    rw [matchOuter] at h
    cases h
    exact ⟨fun _ _ => rfl, fun sol hs => by cases hs⟩
  | cons p ps ih =>
    intro result out h
    rw [matchOuter] at h
    by_cases hp : p ∈ result
    · rw [if_pos hp] at h
      exact ih result out h
    · rw [if_neg hp] at h
      exact matchInner_restores hrec history p people result out hp h

theorem MatchFuel_restores (people : List α) (history : History α τ) (fuel : Nat) :
    Restores (MatchFuel people history fuel) := by
  induction fuel with
  | zero =>
    intro r out h
    rw [MatchFuel] at h
    cases h
  | succ fuel ih =>
    intro r out h
    rw [MatchFuel] at h
    by_cases h1 : people.length = r.keys.card
    · rw [if_pos h1] at h
      cases h
      exact ⟨fun e he => (by cases he), fun sol hs => (by cases hs; rfl)⟩
    · rw [if_neg h1] at h
      by_cases h2 : people.length % 2 ≠ 0
      · rw [if_pos h2] at h
        cases h
        exact ⟨fun _ _ => rfl, fun sol hs => by cases hs⟩
      · rw [if_neg h2] at h
        exact matchOuter_restores ih history people people r out h

theorem unmatched_le (people : List α) (r : Result α) : unmatched people r ≤ people.length :=
  List.countP_le_length _

theorem countP_lt_of_imp {β : Type} (P Q : β → Bool) (l : List β)
    (himp : ∀ x ∈ l, P x = true → Q x = true) (a : β) (ha : a ∈ l) (hQ : Q a = true)
    (hP : P a = false) : l.countP P < l.countP Q := by
  induction l with
  | nil => cases ha
  | cons b l ih =>
    have hmono : l.countP P ≤ l.countP Q :=
      List.countP_mono_left (fun x hx => himp x (List.mem_cons_of_mem _ hx))
    rcases List.mem_cons.mp ha with hab | hal
    · subst hab
      rw [List.countP_cons_of_pos _ _ hQ, List.countP_cons_of_neg _ _ (by simp [hP])]
      omega
    · have ih' := ih (fun x hx => himp x (List.mem_cons_of_mem _ hx)) hal
      cases hPb : P b with
      | false =>
        rw [List.countP_cons_of_neg _ _ (by simp [hPb])]
        cases hQb : Q b with
        | false => rw [List.countP_cons_of_neg _ _ (by simp [hQb])]; exact ih'
        | true => rw [List.countP_cons_of_pos _ _ hQb]; omega
      | true =>
        rw [List.countP_cons_of_pos _ _ hPb,
          List.countP_cons_of_pos _ _ (himp b (List.mem_cons_self _ _) hPb)]
        omega

theorem unmatched_insert_lt (people : List α) (r : Result α) (p q : α) (hp : p ∈ people)
    (hpr : p ∉ r) : unmatched people ((r.insert p q).insert q p) < unmatched people r := by
  unfold unmatched
  apply countP_lt_of_imp _ _ people _ p hp
  · simpa using hpr
  · simp [Finmap.mem_insert]
  · intro x _ hx
    simp only [Finmap.mem_insert, decide_eq_true_eq, not_or] at hx ⊢
    exact hx.2.2

theorem matchInner_isSome {recurse : Result α → Option (Outcome α)} (hrec : Restores recurse)
    (history : History α τ) (people : List α) (p : α) (result : Result α)
    (hp : p ∈ people) (hpr : p ∉ result)
    (htot : ∀ r, unmatched people r < unmatched people result → (recurse r).isSome) :
    ∀ qs : List α, (matchInner recurse history p qs result).isSome := by
  intro qs
  induction qs with
  | nil => rw [matchInner_nil]; rfl
  | cons q qs ih =>
    cases hc : isCandidate history result p q with
    | false => rw [matchInner_skip _ _ _ _ _ _ hc]; exact ih
    | true =>
      rw [matchInner_try _ _ _ _ _ _ hc]
      have hc' : q ∉ result ∧ p ≠ q ∧ wasMatched history p q = false := by
        simpa [isCandidate, and_assoc] using hc
      have hs := htot _ (unmatched_insert_lt people result p q hp hpr)
      cases hr : recurse ((result.insert p q).insert q p) with
      | none => rw [hr] at hs; cases hs
      | some o =>
        cases hret : o.ret with
        | ok sol => simp only [hret]; rfl
        | error e =>
          simp only [hret]
          rw [(hrec _ _ hr).1 _ hret, erase_pair result hpr hc'.1]
          exact ih

theorem matchOuter_isSome {recurse : Result α → Option (Outcome α)} (hrec : Restores recurse)
    (history : History α τ) (people : List α) (result : Result α)
    (htot : ∀ r, unmatched people r < unmatched people result → (recurse r).isSome) :
    ∀ ps : List α, (∀ x ∈ ps, x ∈ people) →
      (matchOuter recurse history people ps result).isSome := by
  intro ps
  induction ps with
  | nil => intro _; rw [matchOuter]; rfl
  | cons p ps ih =>
    intro hsub
    rw [matchOuter]
    by_cases hp : p ∈ result
    · rw [if_pos hp]
      exact ih (fun x hx => hsub x (List.mem_cons_of_mem _ hx))
    · rw [if_neg hp]
      exact matchInner_isSome hrec history people p result (hsub p (List.mem_cons_self _ _)) hp
        htot people

/-- With more fuel than unmatched positions the recursion returns. -/
theorem MatchFuel_isSome (people : List α) (history : History α τ) :
    ∀ (fuel : Nat) (r : Result α), unmatched people r < fuel →
      (MatchFuel people history fuel r).isSome := by
  intro fuel
  induction fuel with
  | zero => intro r h; omega
  | succ fuel ih =>
    intro r h
    rw [MatchFuel]
    by_cases h1 : people.length = r.keys.card
    · rw [if_pos h1]; rfl
    · rw [if_neg h1]
      by_cases h2 : people.length % 2 ≠ 0
      · rw [if_pos h2]; rfl
      · rw [if_neg h2]
        exact matchOuter_isSome (MatchFuel_restores people history fuel) history people r
          (fun r2 h3 => ih r2 (by omega)) people (fun _ hx => hx)

/-- The function `Match` always returns: the fuel of its definition is enough. -/
theorem Match_isSome (people : List α) (history : History α τ) (result : Result α) :
    (Match people history result).isSome :=
  MatchFuel_isSome people history _ result (Nat.lt_succ_of_le (unmatched_le people result))

theorem wasMatched_iff (history : History α τ) (p q : α) :
    wasMatched history p q = true ↔ Recorded history p q := by
  unfold wasMatched Recorded
  cases h : history.lookup p with
  | none => simp
  | some pHist => simp

theorem lookup_pair (r : Result α) (p q k : α) :
    ((r.insert p q).insert q p).lookup k =
      if k = q then some p else if k = p then some q else r.lookup k := by
  by_cases hq : k = q
  · subst hq
    simp [Finmap.lookup_insert]
  · by_cases hp : k = p
    · subst hp
      rw [Finmap.lookup_insert_of_ne _ hq, Finmap.lookup_insert]
      simp [hq]
    · rw [Finmap.lookup_insert_of_ne _ hq, Finmap.lookup_insert_of_ne _ hp]
      simp [hq, hp]

theorem lookup_pair_of_lookup (r : Result α) {p q k v : α} (hp : p ∉ r) (hq : q ∉ r)
    (h : r.lookup k = some v) : ((r.insert p q).insert q p).lookup k = some v := by
  have hk : k ∈ r := Finmap.mem_of_lookup_eq_some h
  have h1 : k ≠ q := fun e => hq (e ▸ hk)
  have h2 : k ≠ p := fun e => hp (e ▸ hk)
  rw [lookup_pair, if_neg h1, if_neg h2, h]

theorem pairedIn_insert_pair {people : List α} {r : Result α} (hr : PairedIn people r)
    {p q : α} (hp : p ∈ people) (hq : q ∈ people) (hpr : p ∉ r) (hqr : q ∉ r) (hpq : p ≠ q) :
    PairedIn people ((r.insert p q).insert q p) := by
  have key : ∀ k v, ((r.insert p q).insert q p).lookup k = some v →
      (k = q ∧ v = p) ∨ (k = p ∧ v = q) ∨ (k ≠ q ∧ k ≠ p ∧ r.lookup k = some v) := by
    intro k v h
    rw [lookup_pair] at h
    by_cases h1 : k = q
    · rw [if_pos h1] at h
      exact Or.inl ⟨h1, (Option.some.inj h).symm⟩
    · rw [if_neg h1] at h
      by_cases h2 : k = p
      · rw [if_pos h2] at h
        exact Or.inr (Or.inl ⟨h2, (Option.some.inj h).symm⟩)
      · rw [if_neg h2] at h
        exact Or.inr (Or.inr ⟨h1, h2, h⟩)
  refine ⟨?_, ?_, ?_⟩
  · intro k v h
    rcases key k v h with ⟨hk, _⟩ | ⟨hk, _⟩ | ⟨_, _, h3⟩
    · exact hk ▸ hq
    · exact hk ▸ hp
    · exact hr.mem k v h3
  · intro k v h
    rcases key k v h with ⟨hk, hv⟩ | ⟨hk, hv⟩ | ⟨_, _, h3⟩
    · rw [hk, hv]; exact hpq
    · rw [hk, hv]; exact fun e => hpq e.symm
    · exact hr.ne k v h3
  · intro k v h
    rcases key k v h with ⟨hk, hv⟩ | ⟨hk, hv⟩ | ⟨_, _, h3⟩
    · rw [hk, hv, lookup_pair, if_neg hpq, if_pos rfl]
    · rw [hk, hv, lookup_pair, if_pos rfl]
    · exact lookup_pair_of_lookup r hpr hqr (hr.symm k v h3)

theorem freshForward_insert_pair {people : List α} {history : History α τ} {r : Result α}
    (hr : FreshForward people history r) {p q : α}
    (hfresh : ¬ Recorded history p q) (hord : ¬ people.indexOf q < people.indexOf p) :
    FreshForward people history ((r.insert p q).insert q p) := by
  intro k v h hlt
  rw [lookup_pair] at h
  by_cases h1 : k = q
  · rw [if_pos h1] at h
    have hv : v = p := (Option.some.inj h).symm
    rw [h1, hv] at hlt
    exact absurd hlt hord
  · rw [if_neg h1] at h
    by_cases h2 : k = p
    · rw [if_pos h2] at h
      have hv : v = q := (Option.some.inj h).symm
      rw [h2, hv]
      exact hfresh
    · rw [if_neg h2] at h
      exact hr k v h hlt

theorem matchInner_sound {people : List α} {history : History α τ}
    {recurse : Result α → Option (Outcome α)} (hsound : SoundRec people history recurse)
    (hrec : Restores recurse) {p : α} {result : Result α} (hinv : PairedIn people result)
    (hfr : FreshForward people history result) (hp : p ∈ people) (hpr : p ∉ result)
    (hfirst : ∀ x, x ∉ result → ¬ people.indexOf x < people.indexOf p) (qs : List α) :
    (∀ x ∈ qs, x ∈ people) → ∀ out sol, matchInner recurse history p qs result = some out →
      out.ret = .ok sol →
      PairedIn people sol ∧ FreshForward people history sol ∧ people.length = sol.keys.card ∧
        (∀ k v, result.lookup k = some v → sol.lookup k = some v) := by
  induction qs with
  | nil =>
    intro _ out sol h hs
    rw [matchInner_nil] at h
    cases h
    cases hs
  | cons q qs ih =>
    intro hsub out sol h hs
    have hsub' : ∀ x ∈ qs, x ∈ people := fun x hx => hsub x (List.mem_cons_of_mem _ hx)
    cases hc : isCandidate history result p q with
    | false =>
      rw [matchInner_skip _ _ _ _ _ _ hc] at h
      exact ih hsub' out sol h hs
    | true =>
      rw [matchInner_try _ _ _ _ _ _ hc] at h
      have hc' : q ∉ result ∧ p ≠ q ∧ wasMatched history p q = false := by
        simpa [isCandidate, and_assoc] using hc
      have hq : q ∈ people := hsub q (List.mem_cons_self _ _)
      have hnr : ¬ Recorded history p q := by
        rw [← wasMatched_iff, hc'.2.2]; simp
      cases hr : recurse ((result.insert p q).insert q p) with
      | none => rw [hr] at h; cases h
      | some o =>
        rw [hr] at h
        cases hret : o.ret with
        | ok sol2 =>
          simp only [hret] at h
          cases h
          cases hs
          obtain ⟨h1, h2, h3, h4⟩ := hsound _ _ _
            (pairedIn_insert_pair hinv hp hq hpr hc'.1 hc'.2.1)
            (freshForward_insert_pair hfr hnr (hfirst q hc'.1)) hr hret
          exact ⟨h1, h2, h3, fun k v hkv => h4 k v (lookup_pair_of_lookup result hpr hc'.1 hkv)⟩
        | error e =>
          simp only [hret] at h
          rw [(hrec _ _ hr).1 _ hret, erase_pair result hpr hc'.1] at h
          exact ih hsub' out sol h hs

theorem matchOuter_sound {people : List α} {history : History α τ}
    {recurse : Result α → Option (Outcome α)} (hsound : SoundRec people history recurse)
    (hrec : Restores recurse) {result : Result α} (hinv : PairedIn people result)
    (hfr : FreshForward people history result) (ps : List α) :
    ∀ pre : List α, people = pre ++ ps → (∀ x ∈ pre, x ∈ result) →
      ∀ out sol, matchOuter recurse history people ps result = some out →
      out.ret = .ok sol →
      PairedIn people sol ∧ FreshForward people history sol ∧ people.length = sol.keys.card ∧
        (∀ k v, result.lookup k = some v → sol.lookup k = some v) := by
  induction ps with
  | nil =>
    intro pre _ _ out sol h hs
    rw [matchOuter] at h
    cases h
    cases hs
  | cons p ps ih =>
    intro pre hpre hall out sol h hs
    rw [matchOuter] at h
    by_cases hp : p ∈ result
    · rw [if_pos hp] at h
      refine ih (pre ++ [p]) (by simp [hpre]) ?_ out sol h hs
      intro x hx
      rcases List.mem_append.mp hx with hx | hx
      · exact hall x hx
      · rw [List.mem_singleton.mp hx]; exact hp
    · rw [if_neg hp] at h
      have hpm : p ∈ people := by rw [hpre]; simp
      have hppre : p ∉ pre := fun hx => hp (hall p hx)
      have hidx : people.indexOf p = pre.length := by
        rw [hpre, List.indexOf_append_of_not_mem hppre, List.indexOf_cons_self]; rfl
      have hfirst : ∀ x, x ∉ result → ¬ people.indexOf x < people.indexOf p := by
        intro x hx
        have hxpre : x ∉ pre := fun hx2 => hx (hall x hx2)
        rw [hidx, hpre, List.indexOf_append_of_not_mem hxpre]
        omega
      exact matchInner_sound hsound hrec hinv hfr hpm hp hfirst people (fun _ hx => hx)
        out sol h hs

theorem MatchFuel_sound (people : List α) (history : History α τ) (fuel : Nat) :
    SoundRec people history (MatchFuel people history fuel) := by
  induction fuel with
  | zero =>
    intro r out sol _ _ h _
    rw [MatchFuel] at h
    cases h
  | succ fuel ih =>
    intro r out sol hinv hfr h hs
    rw [MatchFuel] at h
    by_cases h1 : people.length = r.keys.card
    · rw [if_pos h1] at h
      cases h
      cases hs
      exact ⟨hinv, hfr, h1, fun _ _ hkv => hkv⟩
    · rw [if_neg h1] at h
      by_cases h2 : people.length % 2 ≠ 0
      · rw [if_pos h2] at h
        cases h
        cases hs
      · rw [if_neg h2] at h
        exact matchOuter_sound ih (MatchFuel_restores people history fuel) hinv hfr people []
          rfl (fun _ hx => absurd hx (List.not_mem_nil _)) out sol h hs

theorem pairedIn_empty (people : List α) : PairedIn people (∅ : Result α) :=
  ⟨fun k v h => by simp at h, fun k v h => by simp at h, fun k v h => by simp at h⟩

theorem freshForward_empty (people : List α) (history : History α τ) :
    FreshForward people history (∅ : Result α) :=
  fun k v h => by simp at h

/-- What a successful call of `Match` on the empty container returns. -/
theorem Match_ok_spec {people : List α} {history : History α τ} {M c : Result α}
    (h : Match people history ∅ = some ⟨.ok M, c⟩) :
    PairedIn people M ∧ FreshForward people history M ∧ people.length = M.keys.card ∧ c = M := by
  obtain ⟨h1, h2, h3, _⟩ := MatchFuel_sound people history _ ∅ _ M (pairedIn_empty people)
    (freshForward_empty people history) h rfl
  exact ⟨h1, h2, h3, (MatchFuel_restores people history _ ∅ _ h).2 M rfl⟩

theorem keys_eq_of_pairedIn {people : List α} {M : Result α} (hM : PairedIn people M)
    (hcard : people.length = M.keys.card) : M.keys = people.toFinset := by
  apply Finset.eq_of_subset_of_card_le
  · intro k hk
    obtain ⟨v, hv⟩ := Finmap.mem_iff.mp (Finmap.mem_keys.mp hk)
    exact List.mem_toFinset.mpr (hM.mem k v hv)
  · rw [← hcard]
    exact List.toFinset_card_le people

theorem matchInner_complete {recurse : Result α → Option (Outcome α)} (hrec : Restores recurse)
    (history : History α τ) (people : List α) (p q0 : α) (result : Result α)
    (hp : p ∈ people) (hpr : p ∉ result)
    (htot : ∀ r, unmatched people r < unmatched people result → (recurse r).isSome)
    (hc0 : isCandidate history result p q0 = true)
    (hok : ∃ sol, recurse ((result.insert p q0).insert q0 p) = some ⟨.ok sol, sol⟩) :
    ∀ qs : List α, q0 ∈ qs →
      ∃ sol, matchInner recurse history p qs result = some ⟨.ok sol, sol⟩ := by
  intro qs
  induction qs with
  | nil => intro h; cases h
  | cons q qs ih =>
    intro hmem
    cases hc : isCandidate history result p q with
    | false =>
      rw [matchInner_skip _ _ _ _ _ _ hc]
      rcases List.mem_cons.mp hmem with h | h
      · rw [h, hc] at hc0; cases hc0
      · exact ih h
    | true =>
      rw [matchInner_try _ _ _ _ _ _ hc]
      have hc' : q ∉ result ∧ p ≠ q ∧ wasMatched history p q = false := by
        simpa [isCandidate, and_assoc] using hc
      have hs := htot _ (unmatched_insert_lt people result p q hp hpr)
      cases hr : recurse ((result.insert p q).insert q p) with
      | none => rw [hr] at hs; cases hs
      | some o =>
        cases hret : o.ret with
        | ok sol =>
          simp only [hret]
          exact ⟨sol, by rw [(hrec _ _ hr).2 sol hret]⟩
        | error e =>
          simp only [hret]
          rw [(hrec _ _ hr).1 _ hret, erase_pair result hpr hc'.1]
          rcases List.mem_cons.mp hmem with h | h
          · obtain ⟨sol, hsol⟩ := hok
            rw [h, hr] at hsol
            cases hsol
            cases hret
          · exact ih h

theorem matchOuter_complete {recurse : Result α → Option (Outcome α)} (hrec : Restores recurse)
    (history : History α τ) (people : List α) (result : Result α)
    (htot : ∀ r, unmatched people r < unmatched people result → (recurse r).isSome)
    (hcand : ∀ p ∈ people, p ∉ result → ∃ q0 ∈ people,
      isCandidate history result p q0 = true ∧
      ∃ sol, recurse ((result.insert p q0).insert q0 p) = some ⟨.ok sol, sol⟩) :
    ∀ ps : List α, (∀ x ∈ ps, x ∈ people) → (∃ p ∈ ps, p ∉ result) →
      ∃ sol, matchOuter recurse history people ps result = some ⟨.ok sol, sol⟩ := by
  intro ps
  induction ps with
  | nil =>
    intro _ h
    obtain ⟨p, hp, _⟩ := h
    cases hp
  | cons p ps ih =>
    intro hsub hex
    rw [matchOuter]
    by_cases hp : p ∈ result
    · rw [if_pos hp]
      apply ih (fun x hx => hsub x (List.mem_cons_of_mem _ hx))
      obtain ⟨x, hx, hxr⟩ := hex
      rcases List.mem_cons.mp hx with h | h
      · exact absurd (h ▸ hp) hxr
      · exact ⟨x, h, hxr⟩
    · rw [if_neg hp]
      have hpm := hsub p (List.mem_cons_self _ _)
      obtain ⟨q0, hq0, hc0, hok⟩ := hcand p hpm hp
      exact matchInner_complete hrec history people p q0 result hpm hp htot hc0 hok people hq0

/-- The search is exhaustive: from a container that a perfect matching without
repeats extends, the recursion returns a solution. -/
theorem MatchFuel_complete (people : List α) (history : History α τ) (M : Result α)
    (heven : people.length % 2 = 0) (hnd : people.Nodup)
    (hM : IsPerfectMatching people M) (hNR : NoRepeat history M) :
    ∀ (fuel : Nat) (r : Result α), PairedIn people r →
      (∀ k v, r.lookup k = some v → M.lookup k = some v) → unmatched people r < fuel →
      ∃ sol, MatchFuel people history fuel r = some ⟨.ok sol, sol⟩ := by
  intro fuel
  induction fuel with
  | zero => intro r _ _ h; omega
  | succ fuel ih =>
    intro r hr hext hfuel
    rw [MatchFuel]
    by_cases h1 : people.length = r.keys.card
    · rw [if_pos h1]; exact ⟨r, rfl⟩
    · rw [if_neg h1]
      have h2 : ¬ people.length % 2 ≠ 0 := by omega
      rw [if_neg h2]
      apply matchOuter_complete (MatchFuel_restores people history fuel) history people r
        (fun r2 h3 => MatchFuel_isSome people history fuel r2 (by omega)) _ people
        (fun _ hx => hx)
      · by_contra hall
        apply h1
        have hsub : people.toFinset ⊆ r.keys := by
          intro x hx
          by_contra hxr
          exact hall ⟨x, List.mem_toFinset.mp hx, fun hm => hxr (Finmap.mem_keys.mpr hm)⟩
        have hsub2 : r.keys ⊆ people.toFinset := by
          intro k hk
          obtain ⟨v, hv⟩ := Finmap.mem_iff.mp (Finmap.mem_keys.mp hk)
          exact List.mem_toFinset.mpr (hr.mem k v hv)
        rw [← Finset.Subset.antisymm hsub hsub2, List.toFinset_card_of_nodup hnd]
      · intro p hp hpr
        obtain ⟨q0, hq0⟩ := Finmap.mem_iff.mp ((hM.keys p).mpr hp)
        have hq0p : M.lookup q0 = some p := hM.symm p q0 hq0
        have hq0m : q0 ∈ people := (hM.keys q0).mp (Finmap.mem_of_lookup_eq_some hq0p)
        have hq0r : q0 ∉ r := by
          intro hin
          obtain ⟨x, hx⟩ := Finmap.mem_iff.mp hin
          have hx2 := hext q0 x hx
          rw [hq0p] at hx2
          cases hx2
          exact hpr (Finmap.mem_of_lookup_eq_some (hr.symm q0 p hx))
        have hne : p ≠ q0 := fun e => hM.ne p q0 hq0 e.symm
        have hwm : wasMatched history p q0 = false := by
          cases hw : wasMatched history p q0 with
          | false => rfl
          | true => exact absurd ((wasMatched_iff history p q0).mp hw) (hNR p q0 hq0)
        refine ⟨q0, hq0m, by simp [isCandidate, hq0r, hne, hwm], ?_⟩
        apply ih _ (pairedIn_insert_pair hr hp hq0m hpr hq0r hne)
        · intro k v hkv
          rw [lookup_pair] at hkv
          by_cases hk1 : k = q0
          · rw [if_pos hk1] at hkv
            cases hkv
            rw [hk1]; exact hq0p
          · rw [if_neg hk1] at hkv
            by_cases hk2 : k = p
            · rw [if_pos hk2] at hkv
              cases hkv
              rw [hk2]; exact hq0
            · rw [if_neg hk2] at hkv
              exact hext k v hkv
        · have := unmatched_insert_lt people r p q0 hp hpr
          omega

theorem addEntry_lookup (now : τ) (h : History α τ) (k v x : α) :
    (addEntry now h k v).lookup x =
      if x = k then some (((h.lookup k).getD ∅).insert v now) else h.lookup x := by
  unfold addEntry
  by_cases hx : x = k
  · subst hx
    cases hk : h.lookup x <;> simp [Finmap.lookup_insert]
  · cases hk : h.lookup k <;> simp [Finmap.lookup_insert_of_ne _ hx, hx]

theorem foldl_addEntry_lookup (now : τ) (l : List (Sigma (fun _ : α => α))) :
    l.NodupKeys → ∀ (h : History α τ) (x : α),
      (l.foldl (fun d s => addEntry now d s.1 s.2) h).lookup x =
        match l.dlookup x with
        | some v => some (((h.lookup x).getD ∅).insert v now)
        | none => h.lookup x := by
  induction l with
  | nil => intro _ h x; rfl
  | cons s l ih =>
    intro hnd h x
    obtain ⟨k, v⟩ := s
    have hnd' := List.nodupKeys_cons.mp hnd
    rw [List.foldl_cons, ih hnd'.2]
    by_cases hx : x = k
    · subst hx
      rw [List.dlookup_cons_eq, List.dlookup_eq_none.mpr hnd'.1]
      simp [addEntry_lookup]
    · rw [List.dlookup_cons_ne _ _ hx]
      simp [addEntry_lookup, hx]

/-- The entry of a participant in the updated history: the old entry, or an
empty map when there was none, with the partner added at the time `now`; the
entry of somebody who is not a key of the matching is unchanged. -/
theorem AddToHistory_lookup (history : History α τ) (result : Result α) (now : τ) (x : α) :
    (AddToHistory history result now).lookup x =
      match result.lookup x with
      | some v => some (((history.lookup x).getD ∅).insert v now)
      | none => history.lookup x := by
  induction result using Finmap.induction_on with
  | H al =>
    have h := foldl_addEntry_lookup now al.entries al.nodupKeys history x
    exact h

theorem noRepeat_of_symmetric {people : List α} {history : History α τ} {M : Result α}
    (hM : PairedIn people M) (hfr : FreshForward people history M)
    (hsym : ∀ a b, Recorded history a b → Recorded history b a) : NoRepeat history M := by
  intro p q hpq hrec
  have hqp := hM.symm p q hpq
  rcases Nat.lt_trichotomy (people.indexOf p) (people.indexOf q) with hlt | heq | hgt
  · exact hfr p q hpq hlt hrec
  · exact hM.ne p q hpq ((List.indexOf_inj (hM.mem p q hpq) (hM.mem q p hqp)).mp heq).symm
  · exact hfr q p hqp hgt (hsym p q hrec)

theorem isPerfectMatching_of_pairedIn {people : List α} {M : Result α}
    (hM : PairedIn people M) (hcard : people.length = M.keys.card) :
    IsPerfectMatching people M := by
  refine ⟨fun p => ?_, hM.ne, hM.symm⟩
  rw [← Finmap.mem_keys, keys_eq_of_pairedIn hM hcard, List.mem_toFinset]

/-- On an odd number of participants and the empty container, `Match` fails with
`oddError`, called on the remainder `len(people) % 2`. -/
theorem Match_odd (people : List α) (history : History α τ) (hodd : people.length % 2 = 1) :
    Match people history ∅ = some ⟨.error (.oddError (people.length % 2)), ∅⟩ := by
  have h1 : ¬ people.length = (∅ : Result α).keys.card := by
    rw [Finmap.keys_empty, Finset.card_empty]
    omega
  have h2 : people.length % 2 ≠ 0 := by omega
  rw [Match, MatchFuel, if_neg h1, if_pos h2]

theorem recorded_iff_timeOf (history : History α τ) (p q : α) :
    Recorded history p q ↔ (timeOf history p q).isSome = true := by
  unfold Recorded timeOf
  cases h : history.lookup p with
  | none => simp
  | some pHist => simp [Finmap.lookup_isSome]

/-- The time of a pair in the updated history: `now` for the pairs of the
matching, the old time for every other pair. -/
theorem timeOf_AddToHistory (history : History α τ) (result : Result α) (now : τ) (p q : α) :
    timeOf (AddToHistory history result now) p q =
      if result.lookup p = some q then some now else timeOf history p q := by
  unfold timeOf
  rw [AddToHistory_lookup]
  cases hr : result.lookup p with
  | none => simp
  | some v =>
    by_cases hq : q = v
    · subst hq
      simp [Finmap.lookup_insert]
    · have hvq : ¬ v = q := fun e => hq e.symm
      simp only [Option.some.injEq, hvq, if_false]
      rw [Finmap.lookup_insert_of_ne _ hq]
      cases history.lookup p <;> simp

theorem mem_AddToHistory (history : History α τ) (result : Result α) (now : τ) (p : α) :
    p ∈ AddToHistory history result now ↔ p ∈ result ∨ p ∈ history := by
  rw [← Finmap.lookup_isSome, ← Finmap.lookup_isSome, ← Finmap.lookup_isSome,
    AddToHistory_lookup]
  cases result.lookup p <;> simp

/-- A criterion for the symmetry of a matching that looks at its keys only. -/
theorem lookup_symm_of_keys (M : Result α)
    (h : ∀ p ∈ M.keys, (M.lookup p).bind (fun q => M.lookup q) = some p) :
    ∀ p q, M.lookup p = some q → M.lookup q = some p := by
  intro p q hpq
  have hp := h p (Finmap.mem_keys.mpr (Finmap.mem_of_lookup_eq_some hpq))
  rw [hpq] at hp
  exact hp

/-- A criterion for the symmetry of a history that looks at its entries only. -/
theorem timeOf_symm_of_keys (history : History α τ)
    (h : ∀ p ∈ history.keys, ∀ q ∈ ((history.lookup p).getD ∅).keys,
      timeOf history q p = timeOf history p q) :
    ∀ p q, timeOf history p q = timeOf history q p := by
  have key : ∀ p q t, timeOf history p q = some t → timeOf history q p = some t := by
    intro p q t ht
    have ht' := ht
    unfold timeOf at ht
    cases hp : history.lookup p with
    | none => rw [hp] at ht; cases ht
    | some pHist =>
      rw [hp] at ht
      have h1 : p ∈ history.keys := Finmap.mem_keys.mpr (Finmap.mem_of_lookup_eq_some hp)
      have h2 : q ∈ ((history.lookup p).getD ∅).keys := by
        rw [hp]
        exact Finmap.mem_keys.mpr (Finmap.mem_of_lookup_eq_some ht)
      rw [h p h1 q h2]
      exact ht'
  intro p q
  cases hpq : timeOf history p q with
  | some t => exact (key p q t hpq).symm
  | none =>
    cases hqp : timeOf history q p with
    | none => rfl
    | some t => rw [key q p t hqp] at hpq; cases hpq

theorem matchInner_all_skipped (recurse : Result α → Option (Outcome α))
    (history : History α τ) (p : α) (result : Result α) (qs : List α)
    (h : ∀ q ∈ qs, isCandidate history result p q = false) :
    matchInner recurse history p qs result = some ⟨.error .ErrNoSolution, result⟩ := by
  induction qs with
  | nil => rfl
  | cons q qs ih =>
    rw [matchInner_skip _ _ _ _ _ _ (h q (List.mem_cons_self _ _))]
    exact ih (fun x hx => h x (List.mem_cons_of_mem _ hx))

theorem matchOuter_all_matched (recurse : Result α → Option (Outcome α))
    (history : History α τ) (people : List α) (result : Result α) (ps : List α)
    (h : ∀ p ∈ ps, p ∈ result) :
    matchOuter recurse history people ps result = some ⟨.error .ErrNoSolution, result⟩ := by
  induction ps with
  | nil => rfl
  | cons p ps ih =>
    rw [matchOuter, if_pos (h p (List.mem_cons_self _ _))]
    exact ih (fun x hx => h x (List.mem_cons_of_mem _ hx))

/-- The length test comes first: a container with as many entries as `people`
has positions is returned as it is. -/
theorem Match_of_length_eq (people : List α) (history : History α τ) (result : Result α)
    (h : people.length = result.keys.card) :
    Match people history result = some ⟨.ok result, result⟩ := by
  rw [Match, MatchFuel, if_pos h]

/-- A pair of a returned matching is not recorded in both directions. -/
theorem not_both_recorded {people : List α} {history : History α τ} {M : Result α}
    (hM : PairedIn people M) (hfr : FreshForward people history M) {p q : α}
    (hpq : M.lookup p = some q) : ¬ (Recorded history p q ∧ Recorded history q p) := by
  rintro ⟨h1, h2⟩
  have hqp := hM.symm p q hpq
  rcases Nat.lt_trichotomy (people.indexOf p) (people.indexOf q) with hlt | heq | hgt
  · exact hfr p q hpq hlt h1
  · exact hM.ne p q hpq ((List.indexOf_inj (hM.mem p q hpq) (hM.mem q p hqp)).mp heq).symm
  · exact hfr q p hqp hgt h2

theorem recorded_AddToHistory_of_lookup (history : History α τ) (result : Result α) (now : τ)
    {p q : α} (h : result.lookup p = some q) :
    Recorded (AddToHistory history result now) p q := by
  rw [recorded_iff_timeOf, timeOf_AddToHistory, if_pos h]
  rfl

/-- The inner loop returns the solution of the first candidate, in the order of
the list, for which the recursive call succeeds: the calls for the candidates
before it have failed. -/
theorem matchInner_first {recurse : Result α → Option (Outcome α)} (hrec : Restores recurse)
    (history : History α τ) (p : α) (result : Result α) (hpr : p ∉ result) :
    ∀ (qs : List α),
      (∀ q ∈ qs, isCandidate history result p q = true → ∀ o sol,
        recurse ((result.insert p q).insert q p) = some o → o.ret = .ok sol →
        sol.lookup p = some q) →
      ∀ (out : Outcome α) (sol : Result α),
        matchInner recurse history p qs result = some out → out.ret = .ok sol →
        ∃ l1 q l2, qs = l1 ++ q :: l2 ∧ sol.lookup p = some q ∧
          ∀ x ∈ l1, isCandidate history result p x = true →
            ∃ o e, recurse ((result.insert p x).insert x p) = some o ∧ o.ret = .error e := by
  intro qs
  induction qs with
  | nil =>
    intro _ out sol h hs
    rw [matchInner_nil] at h
    cases h
    cases hs
  | cons q qs ih =>
    intro hext out sol h hs
    have hext' : ∀ x ∈ qs, isCandidate history result p x = true → ∀ o sol,
        recurse ((result.insert p x).insert x p) = some o → o.ret = .ok sol →
        sol.lookup p = some x :=
      fun x hx => hext x (List.mem_cons_of_mem _ hx)
    cases hc : isCandidate history result p q with
    | false =>
      rw [matchInner_skip _ _ _ _ _ _ hc] at h
      obtain ⟨l1, q1, l2, hqs, hl, hfail⟩ := ih hext' out sol h hs
      refine ⟨q :: l1, q1, l2, by rw [hqs]; rfl, hl, fun x hx hcx => ?_⟩
      rcases List.mem_cons.mp hx with hxq | hxl
      · rw [hxq, hc] at hcx; cases hcx
      · exact hfail x hxl hcx
    | true =>
      rw [matchInner_try _ _ _ _ _ _ hc] at h
      have hc' : q ∉ result ∧ p ≠ q ∧ wasMatched history p q = false := by
        simpa [isCandidate, and_assoc] using hc
      cases hr : recurse ((result.insert p q).insert q p) with
      | none => rw [hr] at h; cases h
      | some o =>
        rw [hr] at h
        cases hret : o.ret with
        | ok sol2 =>
          simp only [hret] at h
          cases h
          cases hs
          exact ⟨[], q, qs, rfl, hext q (List.mem_cons_self _ _) hc o _ hr hret,
            fun x hx => absurd hx (List.not_mem_nil x)⟩
        | error e =>
          simp only [hret] at h
          rw [(hrec _ _ hr).1 _ hret, erase_pair result hpr hc'.1] at h
          obtain ⟨l1, q1, l2, hqs, hl, hfail⟩ := ih hext' out sol h hs
          refine ⟨q :: l1, q1, l2, by rw [hqs]; rfl, hl, fun x hx hcx => ?_⟩
          rcases List.mem_cons.mp hx with hxq | hxl
          · rw [hxq]; exact ⟨o, e, hr, hret⟩
          · exact hfail x hxl hcx

theorem quickPairs_cons (people : List α) (n i : Nat) (p : α) (ps : List α) (pair : Result α)
    (h : 0 < people.length) :
    quickPairs people n i (p :: ps) pair =
      if p ∈ pair then quickPairs people n (i + 1) ps pair
      else if people.get ⟨(i + n) % people.length, Nat.mod_lt _ h⟩ ∈ pair then
        quickPairs people n (i + 1) ps pair
      else quickPairs people n (i + 1) ps
        ((pair.insert p (people.get ⟨(i + n) % people.length, Nat.mod_lt _ h⟩)).insert
          (people.get ⟨(i + n) % people.length, Nat.mod_lt _ h⟩) p) := by
  rw [quickPairs, dif_pos h]

theorem quickPairs_nil (people : List α) (n i : Nat) (pair : Result α) :
    quickPairs people n i [] pair = pair := rfl

theorem quickPairs_cons_of_getElem (people : List α) (n i : Nat) (p : α) (ps : List α)
    (pair : Result α) (q : α) (hq : people[(i + n) % people.length]? = some q) :
    quickPairs people n i (p :: ps) pair =
      if p ∈ pair then quickPairs people n (i + 1) ps pair
      else if q ∈ pair then quickPairs people n (i + 1) ps pair
      else quickPairs people n (i + 1) ps ((pair.insert p q).insert q p) := by
  obtain ⟨hlt, hget⟩ := List.getElem?_eq_some_iff.mp hq
  have hpos : 0 < people.length := by omega
  have hq2 : people.get ⟨(i + n) % people.length, Nat.mod_lt _ hpos⟩ = q := hget
  rw [quickPairs_cons people n i p ps pair hpos, hq2]

/-- The rotation loop never changes an entry that is already in the map. -/
theorem quickPairs_preserves (people : List α) (n : Nat) (ps : List α) :
    ∀ (i : Nat) (pair : Result α) (x y : α), pair.lookup x = some y →
      (quickPairs people n i ps pair).lookup x = some y := by
  induction ps with
  | nil => intro i pair x y h; exact h
  | cons p ps ih =>
    intro i pair x y h
    by_cases hpos : 0 < people.length
    · rw [quickPairs_cons people n i p ps pair hpos]
      by_cases hp : p ∈ pair
      · rw [if_pos hp]; exact ih _ _ x y h
      · rw [if_neg hp]
        by_cases hq : people.get ⟨(i + n) % people.length, Nat.mod_lt _ hpos⟩ ∈ pair
        · rw [if_pos hq]; exact ih _ _ x y h
        · rw [if_neg hq]
          exact ih _ _ x y (lookup_pair_of_lookup pair hp hq h)
    · rw [quickPairs, dif_neg hpos]
      exact h

/-- Every entry that the rotation loop adds is a pair of the rotation. -/
theorem quickPairs_form (people : List α) (n : Nat) (ps : List α) :
    ∀ (i : Nat) (pair : Result α) (pre : List α), people = pre ++ ps → pre.length = i →
      (∀ x y, pair.lookup x = some y → IsRotationPair people n x y) →
      ∀ x y, (quickPairs people n i ps pair).lookup x = some y →
        IsRotationPair people n x y := by
  induction ps with
  | nil => intro i pair pre _ _ hform x y h; exact hform x y h
  | cons p ps ih =>
    intro i pair pre hpre hlen hform x y h
    have hnext : people = (pre ++ [p]) ++ ps := by rw [hpre]; simp
    have hlen' : (pre ++ [p]).length = i + 1 := by simp [hlen]
    have hi : i < people.length := by rw [hpre]; simp [hlen]
    have hpi : people[i]? = some p := by
      rw [hpre, List.getElem?_append_right (by omega), hlen]
      simp
    have hpos : 0 < people.length := by omega
    rw [quickPairs_cons people n i p ps pair hpos] at h
    by_cases hp : p ∈ pair
    · rw [if_pos hp] at h
      exact ih _ _ _ hnext hlen' hform x y h
    · rw [if_neg hp] at h
      by_cases hq : people.get ⟨(i + n) % people.length, Nat.mod_lt _ hpos⟩ ∈ pair
      · rw [if_pos hq] at h
        exact ih _ _ _ hnext hlen' hform x y h
      · rw [if_neg hq] at h
        have hqi : people[(i + n) % people.length]? =
            some (people.get ⟨(i + n) % people.length, Nat.mod_lt _ hpos⟩) := by
          rw [List.getElem?_eq_getElem (Nat.mod_lt _ hpos)]
          rfl
        refine ih _ _ _ hnext hlen' ?_ x y h
        intro a b hab
        rw [lookup_pair] at hab
        by_cases h1 : a = people.get ⟨(i + n) % people.length, Nat.mod_lt _ hpos⟩
        · rw [if_pos h1] at hab
          cases hab
          exact ⟨i, hi, Or.inr ⟨hpi, by rw [h1]; exact hqi⟩⟩
        · rw [if_neg h1] at hab
          by_cases h2 : a = p
          · rw [if_pos h2] at hab
            cases hab
            exact ⟨i, hi, Or.inl ⟨by rw [h2]; exact hpi, hqi⟩⟩
          · rw [if_neg h2] at hab
            exact hform a b hab

theorem lookup_insert_ite (s : Result α) (a b x : α) :
    (s.insert a b).lookup x = if x = a then some b else s.lookup x := by
  by_cases h : x = a
  · subst h
    rw [if_pos rfl, Finmap.lookup_insert]
  · rw [if_neg h, Finmap.lookup_insert_of_ne _ h]

theorem keys_insert (s : Result α) (a b : α) : (s.insert a b).keys = insert a s.keys := by
  ext x
  simp [Finmap.mem_keys, Finmap.mem_insert]

theorem addEntryGo_some (now : τ) (g : Finmap (fun _ : α => GoInner α τ)) (k v : α) :
    addEntryGo now (some g) k v =
      if isNilEntry (g.lookup k) = true then none
      else some (some (g.insert k (some (((g.lookup k).join.getD ∅).insert v now)))) := by
  unfold addEntryGo
  cases hk : g.lookup k with
  | none => simp only [hk]; rfl
  | some inner =>
    cases inner with
    | none => simp only [hk]; rfl
    | some m => simp only [hk]; rfl

theorem foldl_addEntryGo_none (now : τ) (l : List (Sigma (fun _ : α => α))) :
    l.foldl (fun d s => d.bind (fun h => addEntryGo now h s.1 s.2))
      (none : Option (GoHistory α τ)) = none := by
  induction l with
  | nil => rfl
  | cons s l ih => rw [List.foldl_cons]; exact ih

theorem AddToHistoryGo_eq_foldl (history : GoHistory α τ) (al : AList (fun _ : α => α))
    (now : τ) :
    AddToHistoryGo history al.toFinmap now =
      al.entries.foldl (fun d s => d.bind (fun h => addEntryGo now h s.1 s.2))
        (some history) := rfl

theorem foldl_addEntryGo_reads (now : τ) (l : List (Sigma (fun _ : α => α))) :
    ∀ (g : Finmap (fun _ : α => GoInner α τ)) (H : History α τ), Reads g H →
      (∀ s ∈ l, isNilEntry (g.lookup s.1) = false) →
      ∃ g2, l.foldl (fun d s => d.bind (fun h => addEntryGo now h s.1 s.2))
          (some (some g)) = some (some g2) ∧
        Reads g2 (l.foldl (fun d s => addEntry now d s.1 s.2) H) := by
  induction l with
  | nil => intro g H hr _; exact ⟨g, rfl, hr⟩
  | cons s l ih =>
    intro g H hr hnil
    obtain ⟨k, v⟩ := s
    have hk : isNilEntry (g.lookup k) = false := hnil ⟨k, v⟩ (List.mem_cons_self _ _)
    have hstep : addEntryGo now (some g) k v =
        some (some (g.insert k (some (((g.lookup k).join.getD ∅).insert v now)))) := by
      rw [addEntryGo_some, if_neg (by simp [hk])]
    have hcont : (H.lookup k).getD ∅ = (g.lookup k).join.getD ∅ := by
      rw [hr k]
      cases hg : g.lookup k with
      | none => rfl
      | some inner => cases inner <;> rfl
    rw [List.foldl_cons, List.foldl_cons]
    simp only [Option.some_bind, hstep]
    apply ih
    · intro x
      rw [addEntry_lookup]
      by_cases hx : x = k
      · subst hx
        rw [if_pos rfl, Finmap.lookup_insert, hcont]
        rfl
      · rw [if_neg hx, Finmap.lookup_insert_of_ne _ hx]
        exact hr x
    · intro s hs
      by_cases hsk : s.1 = k
      · rw [hsk, Finmap.lookup_insert]
        rfl
      · rw [Finmap.lookup_insert_of_ne _ hsk]
        exact hnil s (List.mem_cons_of_mem _ hs)

/-- Where Go does not panic, `AddToHistory` on the contents is what it returns:
for an allocated history in which no key of `result` has a nil inner map,
`AddToHistoryGo` returns an allocated history that reads as `AddToHistory` of
what the given history reads as. -/
theorem AddToHistoryGo_of_reads (g : Finmap (fun _ : α => GoInner α τ)) (H : History α τ)
    (result : Result α) (now : τ) (hr : Reads g H)
    (hnil : ∀ k ∈ result, isNilEntry (g.lookup k) = false) :
    ∃ g2, AddToHistoryGo (some g) result now = some (some g2) ∧
      Reads g2 (AddToHistory H result now) := by
  induction result using Finmap.induction_on with
  | H al =>
    exact foldl_addEntryGo_reads now al.entries g H hr
      (fun s hs => hnil s.1 (Finmap.mem_toFinmap.mpr (List.mem_keys_of_mem hs)))

/-- On a nil history `AddToHistory` panics as soon as `result` has an entry. -/
theorem AddToHistoryGo_nil (result : Result α) (now : τ) (p q : α)
    (h : result.lookup p = some q) :
    AddToHistoryGo (none : GoHistory α τ) result now = none := by
  induction result using Finmap.induction_on with
  | H al =>
    rw [AddToHistoryGo_eq_foldl]
    cases hl : al.entries with
    | nil =>
      have hp : p ∈ al.keys := by
        have := Finmap.mem_of_lookup_eq_some h
        exact Finmap.mem_toFinmap.mp this
      rw [AList.keys, hl] at hp
      cases hp
    | cons s l =>
      rw [List.foldl_cons]
      exact foldl_addEntryGo_none now l

/-- On a history with a nil inner map at a key of `result`, `AddToHistory`
panics. -/
theorem AddToHistoryGo_nil_inner (g : Finmap (fun _ : α => GoInner α τ)) (result : Result α)
    (now : τ) (p : α) (hp : p ∈ result) (hnil : isNilEntry (g.lookup p) = true) :
    AddToHistoryGo (some g) result now = none := by
  induction result using Finmap.induction_on with
  | H al =>
    rw [AddToHistoryGo_eq_foldl]
    have hpk : p ∈ al.entries.keys := Finmap.mem_toFinmap.mp hp
    have key : ∀ (l : List (Sigma (fun _ : α => α))) (g1 : Finmap (fun _ : α => GoInner α τ)),
        p ∈ l.keys → isNilEntry (g1.lookup p) = true →
        l.foldl (fun d s => d.bind (fun h => addEntryGo now h s.1 s.2)) (some (some g1)) =
          none := by
      intro l
      induction l with
      | nil => intro g1 hm _; cases hm
      | cons s l ih =>
        intro g1 hm hn
        rw [List.foldl_cons]
        simp only [Option.some_bind, addEntryGo_some]
        by_cases c : isNilEntry (g1.lookup s.1) = true
        · rw [if_pos c]
          exact foldl_addEntryGo_none now l
        · rw [if_neg c]
          have hne : p ≠ s.1 := fun e => c (e ▸ hn)
          apply ih
          · rw [List.keys_cons, List.mem_cons] at hm
            rcases hm with hm | hm
            · exact absurd hm hne
            · exact hm
          · rw [Finmap.lookup_insert_of_ne _ hne]
            exact hn
    exact key al.entries g hpk hnil

/-- On allocated maps, for every entry `p -> q` of the matching the updated
history has `H'[p][q] = now`, whether or not `p` had an entry before; when the
matching is symmetric, `H'[q][p] = now` as well. -/
theorem AddToHistory_records (history : History α τ) (result : Result α) (now : τ)
    (p q : α) (h : result.lookup p = some q) :
    (∃ pHist, (AddToHistory history result now).lookup p = some pHist ∧
        pHist.lookup q = some now) ∧
      ((∀ a b, result.lookup a = some b → result.lookup b = some a) →
        ∃ qHist, (AddToHistory history result now).lookup q = some qHist ∧
          qHist.lookup p = some now) := by
  have key : ∀ a b, result.lookup a = some b →
      ∃ aHist, (AddToHistory history result now).lookup a = some aHist ∧
        aHist.lookup b = some now := by
    intro a b hab
    rw [AddToHistory_lookup, hab]
    exact ⟨_, rfl, Finmap.lookup_insert _⟩
  exact ⟨key p q h, fun hsym => key q p (hsym p q h)⟩

end Lemmas

section Claims

variable {α τ : Type} [DecidableEq α]

/-- C1: a matching `M` that `Match` returns without error for the participants
`people`, any history and the empty container has exactly one entry per
participant (its key set is the set of participants and it has as many entries
as `people` has positions), pairs nobody with themselves, and is symmetric:
`M[M[p]] = p`. The property holds for every list, so also for the even-length
lists of distinct participants. -/
theorem Match_returns_perfect_matching (people : List α) (history : History α τ)
    (M c : Result α) (h : Match people history ∅ = some ⟨.ok M, c⟩) :
    M.keys = people.toFinset ∧ M.keys.card = people.length ∧
      ∀ p ∈ people, ∃ q, M.lookup p = some q ∧ q ≠ p ∧ M.lookup q = some p := by
  obtain ⟨hM, _, hcard, _⟩ := Match_ok_spec h
  have hkeys := keys_eq_of_pairedIn hM hcard
  refine ⟨hkeys, hcard.symm, fun p hp => ?_⟩
  have hpk : p ∈ M.keys := by rw [hkeys]; exact List.mem_toFinset.mpr hp
  obtain ⟨q, hq⟩ := Finmap.mem_iff.mp (Finmap.mem_keys.mp hpk)
  exact ⟨q, hq, hM.ne p q hq, hM.symm p q hq⟩

/-- Witness of C1: the participants `a`, `b` with the empty history. -/
theorem Match_returns_perfect_matching_witness :
    (pairAB.keys = ["a", "b"].toFinset ∧ pairAB.keys.card = ["a", "b"].length ∧
      ∀ p ∈ ["a", "b"], ∃ q, pairAB.lookup p = some q ∧ q ≠ p ∧ pairAB.lookup q = some p) :=
  Match_returns_perfect_matching ["a", "b"] (∅ : History String Nat) pairAB pairAB (by decide)

/-- C2, as stated, fails: with the participants `a`, `b` and the history
`b: {a: 0}`, which records the pair in one direction only, `Match` returns the
matching of `a` with `b`, although the partner `a` of `b` is a key of
`history[b]`. -/
theorem Match_no_repeat_counterexample :
    ["a", "b"].length % 2 = 0 ∧ ["a", "b"].Nodup ∧
      Match ["a", "b"] historyBA ∅ = some ⟨.ok pairAB, pairAB⟩ ∧
      "b" ∈ ["a", "b"] ∧ pairAB.lookup "b" = some "a" ∧ Recorded historyBA "b" "a" :=
  ⟨by decide, by decide, by decide, by decide, by decide,
    ⟨Finmap.singleton "a" 0, by decide, by decide⟩⟩

/-- C2, amended: in a matching `M` that `Match` returns without error for the
empty container, every pair read from the participant that comes first in
`people` to the one that comes later (the direction in which the search placed
it) is not recorded in the history; and when the history is symmetric (`q` is a
key of `history[p]` whenever `p` is a key of `history[q]`), no partner `M[p]`
is a key of `history[p]`. -/
theorem Match_no_repeat (people : List α) (history : History α τ) (M c : Result α)
    (h : Match people history ∅ = some ⟨.ok M, c⟩) :
    (∀ p q, M.lookup p = some q → people.indexOf p < people.indexOf q →
        ¬ Recorded history p q) ∧
      ((∀ a b, Recorded history a b → Recorded history b a) →
        ∀ p q, M.lookup p = some q → ¬ Recorded history p q) := by
  obtain ⟨hM, hfr, _, _⟩ := Match_ok_spec h
  exact ⟨hfr, fun hsym => noRepeat_of_symmetric hM hfr hsym⟩

/-- Witness of C2 (amended): the participants `a`, `b` with the history
`b: {a: 0}`; the pair read from `a` to `b` is not recorded. -/
theorem Match_no_repeat_witness :
    Match ["a", "b"] historyBA ∅ = some ⟨.ok pairAB, pairAB⟩ ∧
      ¬ Recorded historyBA "a" "b" :=
  ⟨by decide, (Match_no_repeat ["a", "b"] historyBA pairAB pairAB (by decide)).1 "a" "b"
    (by decide) (by decide)⟩

/-- C3: for an even-length list of distinct participants, whenever a perfect
matching over the participants exists that has no pair recorded in the history,
`Match` on the empty container returns a matching without error (a perfect
matching over the participants, which has no pair recorded in the history when
the history is symmetric); so when `Match` returns the error `ErrNoSolution`,
no such matching exists. -/
theorem Match_noSolution_authoritative (people : List α) (history : History α τ)
    (heven : people.length % 2 = 0) (hnd : people.Nodup) :
    ((∃ M, IsPerfectMatching people M ∧ NoRepeat history M) →
        ∃ sol, Match people history ∅ = some ⟨.ok sol, sol⟩ ∧ IsPerfectMatching people sol ∧
          ((∀ a b, Recorded history a b → Recorded history b a) → NoRepeat history sol)) ∧
      (∀ c, Match people history ∅ = some ⟨.error .ErrNoSolution, c⟩ →
        ¬ ∃ M, IsPerfectMatching people M ∧ NoRepeat history M) := by
  have hcomp : (∃ M, IsPerfectMatching people M ∧ NoRepeat history M) →
      ∃ sol, Match people history ∅ = some ⟨.ok sol, sol⟩ := by
    rintro ⟨M, hM, hNR⟩
    exact MatchFuel_complete people history M heven hnd hM hNR _ ∅ (pairedIn_empty people)
      (fun k v hkv => by simp at hkv) (Nat.lt_succ_of_le (unmatched_le people ∅))
  refine ⟨fun hex => ?_, fun c hc hex => ?_⟩
  · obtain ⟨sol, hsol⟩ := hcomp hex
    obtain ⟨h1, h2, h3, _⟩ := Match_ok_spec hsol
    exact ⟨sol, hsol, isPerfectMatching_of_pairedIn h1 h3, noRepeat_of_symmetric h1 h2⟩
  · obtain ⟨sol, hsol⟩ := hcomp hex
    rw [hc] at hsol
    cases hsol

/-- Witness of C3: the participants `a`, `b` with the pair recorded in both
directions; `Match` returns `ErrNoSolution` and no matching without repeats
exists. -/
theorem Match_noSolution_authoritative_witness :
    ["a", "b"].length % 2 = 0 ∧ ["a", "b"].Nodup ∧
      Match ["a", "b"] historyAB ∅ = some ⟨.error .ErrNoSolution, ∅⟩ ∧
      ¬ ∃ M, IsPerfectMatching ["a", "b"] M ∧ NoRepeat historyAB M :=
  ⟨by decide, by decide, by decide,
    (Match_noSolution_authoritative ["a", "b"] historyAB (by decide) (by decide)).2 ∅
      (by decide)⟩

/-- C4 fails on the code: for the six participants `a` to `f`, `QuickMatch`
returns five maps and none of them pairs `c` with `e`, so the unordered pair of
`c` and `e` appears in no matching of the sequence. -/
theorem QuickMatch_six_omits_pair :
    sixPeople.length % 2 = 0 ∧ sixPeople.Nodup ∧
      ∃ ms, QuickMatch sixPeople = .ok ms ∧ ms.length = 5 ∧
        ∀ m ∈ ms, m.lookup "c" ≠ some "e" ∧ m.lookup "e" ≠ some "c" :=
  ⟨by decide, by decide,
    (List.range' 1 (sixPeople.length - 1)).map (fun n => quickPairs sixPeople n 0 sixPeople ∅),
    rfl, by decide, by decide⟩

/-- C5 fails on the code: for the six participants `a` to `f`, the second map
that `QuickMatch` returns (offset 2) has four entries, not six, and leaves `e`
and `f` without a partner. -/
theorem QuickMatch_six_leaves_unassigned :
    sixPeople.length % 2 = 0 ∧ sixPeople.Nodup ∧
      ∃ ms m, QuickMatch sixPeople = .ok ms ∧ ms[1]? = some m ∧ m.keys.card = 4 ∧
        "e" ∉ m ∧ "f" ∉ m :=
  ⟨by decide, by decide,
    (List.range' 1 (sixPeople.length - 1)).map (fun n => quickPairs sixPeople n 0 sixPeople ∅),
    quickPairs sixPeople 2 0 sixPeople ∅, rfl, by decide, by decide, by decide, by decide⟩

/-- C6, as stated, fails on the empty list: `QuickMatch` returns the empty
sequence, whose length 0 is not `len(P) - 1 = -1`. -/
theorem QuickMatch_length_counterexample :
    ([] : List String).length % 2 = 0 ∧
      ∃ ms, QuickMatch ([] : List String) = .ok ms ∧
        (ms.length : Int) ≠ (([] : List String).length : Int) - 1 :=
  ⟨by decide, [], rfl, by decide⟩

/-- C6, amended: for every even-length list of participants `QuickMatch`
succeeds, and the number of maps it returns is `len(P) - 1` when the list is
not empty and 0 when it is empty. -/
theorem QuickMatch_length (people : List α) (heven : people.length % 2 = 0) :
    ∃ ms, QuickMatch people = .ok ms ∧
      (people ≠ [] → (ms.length : Int) = (people.length : Int) - 1) ∧
      (people = [] → ms.length = 0) := by
  refine ⟨(List.range' 1 (people.length - 1)).map (fun n => quickPairs people n 0 people ∅),
    ?_, ?_, ?_⟩
  · have h : ¬ people.length % 2 ≠ 0 := by omega
    rw [QuickMatch, if_neg h]
  · intro hne
    have hpos : 0 < people.length := List.length_pos.mpr hne
    rw [List.length_map, List.length_range']
    omega
  · intro he
    rw [List.length_map, List.length_range', he]
    rfl

/-- Witness of C6 (amended): the participants `a`, `b`. -/
theorem QuickMatch_length_witness :
    ["a", "b"].length % 2 = 0 ∧
      ∃ ms, QuickMatch ["a", "b"] = .ok ms ∧
        (["a", "b"] ≠ [] → (ms.length : Int) = ((["a", "b"].length : Nat) : Int) - 1) ∧
        (["a", "b"] = [] → ms.length = 0) :=
  ⟨by decide, QuickMatch_length ["a", "b"] (by decide)⟩

/-- C7 fails on the code: for the three participants `a`, `b`, `c`, `Match`
returns the error `oddError 1`, which carries the remainder `3 % 2`, not the
count 3; `QuickMatch` on the same list returns `oddError 3`. -/
theorem Match_odd_carries_remainder :
    ["a", "b", "c"].length = 3 ∧
      Match ["a", "b", "c"] (∅ : History String Nat) ∅ = some ⟨.error (.oddError 1), ∅⟩ ∧
      QuickMatch ["a", "b", "c"] = .error (.oddError 3) :=
  ⟨by decide, by decide, by decide⟩

/-- C8: for every odd-length list of participants, `QuickMatch` returns no
sequence and the error `oddError` carrying `len(P)`; `Match` fails on the same
list with an error of the same kind, `oddError`. -/
theorem QuickMatch_odd (people : List α) (history : History α τ)
    (hodd : people.length % 2 = 1) :
    QuickMatch people = .error (.oddError people.length) ∧
      ∃ k, Match people history ∅ = some ⟨.error (.oddError k), ∅⟩ := by
  refine ⟨?_, _, Match_odd people history hodd⟩
  have h : people.length % 2 ≠ 0 := by omega
  rw [QuickMatch, if_pos h]

/-- Witness of C8: the participants `a`, `b`, `c`. -/
theorem QuickMatch_odd_witness :
    ["a", "b", "c"].length % 2 = 1 ∧
      QuickMatch ["a", "b", "c"] = .error (.oddError ["a", "b", "c"].length) ∧
      ∃ k, Match ["a", "b", "c"] (∅ : History String Nat) ∅ =
        some ⟨.error (.oddError k), ∅⟩ :=
  ⟨by decide, QuickMatch_odd ["a", "b", "c"] (∅ : History String Nat) (by decide)⟩

/-- C9: for every list of participants, history and caller-supplied container,
`Match` returns, and when it returns an error (`oddError` or `ErrNoSolution`) the
container after the call is equal to the container before the call. -/
theorem Match_failure_restores (people : List α) (history : History α τ)
    (result : Result α) :
    ∃ out, Match people history result = some out ∧
      ∀ e, out.ret = .error e → out.container = result := by
  cases h : Match people history result with
  | none =>
    have := Match_isSome people history result
    rw [h] at this
    cases this
  | some out =>
    exact ⟨out, rfl, (MatchFuel_restores people history _ result out h).1⟩

/-- Witness of C9: four participants and a history for which the search pairs
`a` with `b`, fails below, undoes the pair and fails; the container is empty
again. -/
theorem Match_failure_restores_witness :
    ∃ out, Match ["a", "b", "c", "d"] historyBlocked ∅ = some out ∧
      out.ret = .error .ErrNoSolution ∧ out.container = ∅ := by
  obtain ⟨out, h, hr⟩ := Match_failure_restores ["a", "b", "c", "d"] historyBlocked ∅
  have hval : Match ["a", "b", "c", "d"] historyBlocked ∅ =
      some ⟨.error .ErrNoSolution, ∅⟩ := by decide
  have hret : out.ret = .error .ErrNoSolution := by
    rw [hval] at h
    cases h
    rfl
  exact ⟨out, h, hret, hr _ hret⟩

/-- C10 fails on the code: for the nil history, which `ReadHistory` returns for
an empty file, and the matching of `a` with `b` and `c` with `d`, the first
step reads no `history[key]`, makes a map and panics on `history[key] = keyHist`,
an assignment to an entry of a nil map; no history is returned, so `H'[a][b]`
is not `now`. The empty allocated history does not panic. -/
theorem AddToHistory_nil_history_panics :
    pairABCD.lookup "a" = some "b" ∧
      AddToHistoryGo (none : GoHistory String Nat) pairABCD 1 = none ∧
      AddToHistoryGo (some ∅ : GoHistory String Nat) pairABCD 1 ≠ none :=
  ⟨by decide, by decide, by decide⟩

/-- C11: the history only grows. Every participant and every (participant,
partner) entry of the history is still present after `AddToHistory`; every pair
`(p, q)` with `M[p] != q` has the same time as before (or none, as before); and
an entry of the result that was not in the history is an entry `(p, M[p])`. -/
theorem AddToHistory_only_grows (history : History α τ) (result : Result α) (now : τ) :
    (∀ p, p ∈ history → p ∈ AddToHistory history result now) ∧
      (∀ p q, Recorded history p q → Recorded (AddToHistory history result now) p q) ∧
      (∀ p q, result.lookup p ≠ some q →
        timeOf (AddToHistory history result now) p q = timeOf history p q) ∧
      (∀ p q, Recorded (AddToHistory history result now) p q → ¬ Recorded history p q →
        result.lookup p = some q) := by
  refine ⟨fun p hp => ?_, fun p q h => ?_, fun p q h => ?_, fun p q h hn => ?_⟩
  · exact (mem_AddToHistory history result now p).mpr (Or.inr hp)
  · rw [recorded_iff_timeOf] at h ⊢
    rw [timeOf_AddToHistory]
    by_cases hr : result.lookup p = some q
    · rw [if_pos hr]; rfl
    · rw [if_neg hr]; exact h
  · rw [timeOf_AddToHistory, if_neg h]
  · by_contra hr
    rw [recorded_iff_timeOf, timeOf_AddToHistory, if_neg hr] at h
    exact hn ((recorded_iff_timeOf history p q).mpr h)

/-- C12: folding the same matching twice gives a history with the same
participants and, for each participant, the same partners as folding it once;
only the times of the pairs of the matching may differ (the result is the fold
at the later time), and when the two times are equal the two histories are
equal. -/
theorem AddToHistory_twice (history : History α τ) (result : Result α) (t1 t2 : τ) :
    (∀ p, p ∈ AddToHistory (AddToHistory history result t1) result t2 ↔
        p ∈ AddToHistory history result t1) ∧
      (∀ p q, Recorded (AddToHistory (AddToHistory history result t1) result t2) p q ↔
        Recorded (AddToHistory history result t1) p q) ∧
      (∀ p q, result.lookup p ≠ some q →
        timeOf (AddToHistory (AddToHistory history result t1) result t2) p q =
          timeOf (AddToHistory history result t1) p q) ∧
      AddToHistory (AddToHistory history result t1) result t2 =
        AddToHistory history result t2 ∧
      (t1 = t2 → AddToHistory (AddToHistory history result t1) result t2 =
        AddToHistory history result t1) := by
  have heq : AddToHistory (AddToHistory history result t1) result t2 =
      AddToHistory history result t2 := by
    apply Finmap.ext_lookup
    intro x
    rw [AddToHistory_lookup, AddToHistory_lookup, AddToHistory_lookup]
    cases hr : result.lookup x with
    | none => rfl
    | some v => simp [Finmap.insert_insert]
  refine ⟨fun p => ?_, fun p q => ?_, fun p q h => ?_, heq, fun ht => ?_⟩
  · rw [mem_AddToHistory, mem_AddToHistory]
    tauto
  · rw [recorded_iff_timeOf, recorded_iff_timeOf, timeOf_AddToHistory, timeOf_AddToHistory]
    by_cases hr : result.lookup p = some q
    · simp [hr]
    · simp [hr]
  · rw [timeOf_AddToHistory, if_neg h]
  · rw [heq, ht]

/-- C15: when the history is symmetric with equal times (the time of `(p, q)` is
the time of `(q, p)`, or both are absent) and the matching is symmetric, the
history after `AddToHistory` is symmetric with equal times too. -/
theorem AddToHistory_symmetric (history : History α τ) (result : Result α) (now : τ)
    (hH : ∀ p q, timeOf history p q = timeOf history q p)
    (hM : ∀ p q, result.lookup p = some q → result.lookup q = some p) :
    ∀ p q, timeOf (AddToHistory history result now) p q =
      timeOf (AddToHistory history result now) q p := by
  intro p q
  rw [timeOf_AddToHistory, timeOf_AddToHistory]
  by_cases h : result.lookup p = some q
  · rw [if_pos h, if_pos (hM p q h)]
  · have h2 : ¬ result.lookup q = some p := fun hq => h (hM q p hq)
    rw [if_neg h, if_neg h2, hH p q]

/-- Witness of C15: the pair of `a` and `c` is added at time 5 to the history
that records `a` with `b` in both directions; the pair of `a` and `c` then has
time 5 in both directions. -/
theorem AddToHistory_symmetric_witness :
    timeOf (AddToHistory historyAB pairAC 5) "a" "c" = some 5 ∧
      timeOf (AddToHistory historyAB pairAC 5) "a" "c" =
        timeOf (AddToHistory historyAB pairAC 5) "c" "a" :=
  ⟨by decide, AddToHistory_symmetric historyAB pairAC 5
    (timeOf_symm_of_keys historyAB (by decide)) (lookup_symm_of_keys pairAC (by decide))
    "a" "c"⟩

/-- C13, as stated, fails on the empty list: with nobody to match, `Match`
returns the empty container without error, whatever the history records. -/
theorem Match_all_recorded_counterexample :
    ([] : List String).length % 2 = 0 ∧ ([] : List String).Nodup ∧
      (∀ p ∈ ([] : List String), ∀ q ∈ ([] : List String), p ≠ q →
        Recorded (∅ : History String Nat) p q) ∧
      Match ([] : List String) (∅ : History String Nat) ∅ = some ⟨.ok ∅, ∅⟩ :=
  ⟨by decide, by decide, fun p hp => absurd hp (List.not_mem_nil p), by decide⟩

/-- C13, amended: for a non-empty even-length list of participants and a history
in which every ordered pair of distinct participants is recorded, `Match` on
the empty container fails with `ErrNoSolution`. -/
theorem Match_all_recorded (people : List α) (history : History α τ) (hne : people ≠ [])
    (heven : people.length % 2 = 0)
    (hall : ∀ p ∈ people, ∀ q ∈ people, p ≠ q → Recorded history p q) :
    Match people history ∅ = some ⟨.error .ErrNoSolution, ∅⟩ := by
  have hpos : 0 < people.length := List.length_pos.mpr hne
  have h1 : ¬ people.length = (∅ : Result α).keys.card := by
    rw [Finmap.keys_empty, Finset.card_empty]
    omega
  have h2 : ¬ people.length % 2 ≠ 0 := by omega
  rw [Match, MatchFuel, if_neg h1, if_neg h2]
  cases hp : people with
  | nil => exact absurd hp hne
  | cons p ps =>
    rw [matchOuter, if_neg Finmap.not_mem_empty, ← hp]
    apply matchInner_all_skipped
    intro q hq
    by_cases hpq : p = q
    · simp [isCandidate, hpq]
    · have hpm : p ∈ people := by rw [hp]; exact List.mem_cons_self _ _
      have hw := (wasMatched_iff history p q).mpr (hall p hpm q hq hpq)
      simp [isCandidate, hw]

/-- Witness of C13 (amended): the participants `a`, `b` with the pair recorded
in both directions. -/
theorem Match_all_recorded_witness :
    ["a", "b"] ≠ [] ∧ ["a", "b"].length % 2 = 0 ∧
      Match ["a", "b"] historyAB ∅ = some ⟨.error .ErrNoSolution, ∅⟩ :=
  ⟨by decide, by decide, Match_all_recorded ["a", "b"] historyAB (by decide) (by decide)
    (fun p hp q hq hpq => (wasMatched_iff historyAB p q).mp
      ((by decide : ∀ x ∈ ["a", "b"], ∀ y ∈ ["a", "b"], x ≠ y →
        wasMatched historyAB x y = true) p hp q hq hpq))⟩

/-- C18, as stated, fails: for the one participant `a` and a caller-supplied
container with one entry, the length test comes before the odd-count test and
`Match` returns the container without error. -/
theorem Match_odd_first_counterexample :
    ["a"].length % 2 = 1 ∧
      Match ["a"] (∅ : History String Nat) oneEntry = some ⟨.ok oneEntry, oneEntry⟩ :=
  ⟨by decide, by decide⟩

/-- C18, amended: for an odd-length list of participants, any history and a
caller-supplied container whose number of entries differs from `len(people)`
(the empty container among them), `Match` returns an `oddError` and no
matching, and leaves the container as it was; a container with `len(people)`
entries is returned without error. -/
theorem Match_odd_first (people : List α) (history : History α τ) (result : Result α)
    (hodd : people.length % 2 = 1) :
    (people.length ≠ result.keys.card →
        ∃ k, Match people history result = some ⟨.error (.oddError k), result⟩) ∧
      (people.length = result.keys.card →
        Match people history result = some ⟨.ok result, result⟩) := by
  refine ⟨fun h1 => ⟨people.length % 2, ?_⟩, Match_of_length_eq people history result⟩
  have h2 : people.length % 2 ≠ 0 := by omega
  rw [Match, MatchFuel, if_neg h1, if_pos h2]

/-- Witness of C18 (amended): the participants `a`, `b`, `c` and a container
with one entry. -/
theorem Match_odd_first_witness :
    ["a", "b", "c"].length % 2 = 1 ∧ ["a", "b", "c"].length ≠ oneEntry.keys.card ∧
      ∃ k, Match ["a", "b", "c"] (∅ : History String Nat) oneEntry =
        some ⟨.error (.oddError k), oneEntry⟩ :=
  ⟨by decide, by decide,
    (Match_odd_first ["a", "b", "c"] (∅ : History String Nat) oneEntry (by decide)).1
      (by decide)⟩

/-- C19, as stated, fails: for the participants `a`, `b` and a container that
pairs `a` with `b` and also `c` with `d`, every participant has an assignment,
but the container has four entries, not two, and `Match` returns
`ErrNoSolution`. -/
theorem Match_base_case_counterexample :
    ["a", "b"].length % 2 = 0 ∧ (∀ p ∈ ["a", "b"], p ∈ pairABCD) ∧
      Match ["a", "b"] (∅ : History String Nat) pairABCD =
        some ⟨.error .ErrNoSolution, pairABCD⟩ :=
  ⟨by decide, by decide, by decide⟩

/-- C19, amended: for a list of distinct participants, any history and a
container whose keys are exactly the participants, `Match` returns the
container itself, unchanged, without error. -/
theorem Match_base_case (people : List α) (history : History α τ) (result : Result α)
    (hnd : people.Nodup) (hkeys : ∀ p, p ∈ result ↔ p ∈ people) :
    Match people history result = some ⟨.ok result, result⟩ := by
  apply Match_of_length_eq
  have h : result.keys = people.toFinset := by
    ext p
    rw [Finmap.mem_keys, List.mem_toFinset]
    exact hkeys p
  rw [h, List.toFinset_card_of_nodup hnd]

/-- Witness of C19 (amended): the participants `a`, `b` and the container that
pairs them. -/
theorem Match_base_case_witness :
    ["a", "b"].Nodup ∧
      Match ["a", "b"] historyAB pairAB = some ⟨.ok pairAB, pairAB⟩ :=
  ⟨by decide, Match_base_case ["a", "b"] historyAB pairAB (by decide)
    (fun p => by simp [pairAB, Finmap.mem_insert, Finmap.not_mem_empty, or_comm])⟩

/-- C16: no pairing is repeated in the next round. When `Match` returns `M` for
the history `H`, and `Match` returns `M'` for the history `AddToHistory(H, M, now)`,
then `M'[p] != M[p]` for every participant `p`. The property holds for every
list of participants. -/
theorem Match_next_round (people : List α) (history : History α τ) (now : τ)
    (M c M' c' : Result α) (h1 : Match people history ∅ = some ⟨.ok M, c⟩)
    (h2 : Match people (AddToHistory history M now) ∅ = some ⟨.ok M', c'⟩) :
    ∀ p ∈ people, M'.lookup p ≠ M.lookup p := by
  obtain ⟨hM, _, _, _⟩ := Match_ok_spec h1
  obtain ⟨hM', hfr', hcard', _⟩ := Match_ok_spec h2
  intro p hp heq
  have hpk : p ∈ M'.keys := by
    rw [keys_eq_of_pairedIn hM' hcard']
    exact List.mem_toFinset.mpr hp
  obtain ⟨q, hq⟩ := Finmap.mem_iff.mp (Finmap.mem_keys.mp hpk)
  have hMpq : M.lookup p = some q := by rw [← heq, hq]
  exact not_both_recorded hM' hfr' hq
    ⟨recorded_AddToHistory_of_lookup history M now hMpq,
      recorded_AddToHistory_of_lookup history M now (hM.symm p q hMpq)⟩

/-- Witness of C16: the participants `a`, `b`, `c`, `d` with the empty history.
The first round pairs `a` with `b` and `c` with `d`, the second round pairs `a`
with `c` and `b` with `d`. -/
theorem Match_next_round_witness :
    Match ["a", "b", "c", "d"] (∅ : History String Nat) ∅ = some ⟨.ok pairABCD, pairABCD⟩ ∧
      Match ["a", "b", "c", "d"] (AddToHistory (∅ : History String Nat) pairABCD 1) ∅ =
        some ⟨.ok pairACBD, pairACBD⟩ ∧
      ∀ p ∈ ["a", "b", "c", "d"], pairACBD.lookup p ≠ pairABCD.lookup p :=
  ⟨by decide, by decide,
    Match_next_round ["a", "b", "c", "d"] (∅ : History String Nat) 1 pairABCD pairABCD
      pairACBD pairACBD (by decide) (by decide)⟩

/-- C20: the matchings are collected in increasing order of the offset. For an
even-length list of `N` participants and every `k < N - 1`, the `k`-th map
(counted from 0) that `QuickMatch` returns pairs position 0 with position
`k + 1`, in both directions, and every pair it contains is a pair of
`P[i]` and `P[(i + k + 1) mod N]` for some position `i`. -/
theorem QuickMatch_offset_order (people : List α) (heven : people.length % 2 = 0)
    (k : Nat) (hk : k < people.length - 1) :
    ∃ ms m p0 pk, QuickMatch people = .ok ms ∧ ms[k]? = some m ∧
      people[0]? = some p0 ∧ people[k + 1]? = some pk ∧
      m.lookup p0 = some pk ∧ m.lookup pk = some p0 ∧
      ∀ x y, m.lookup x = some y → IsRotationPair people (k + 1) x y := by
  have hpos : 0 < people.length := by omega
  have h0 : ¬ people.length % 2 ≠ 0 := by omega
  obtain ⟨p0, rest, hpeople⟩ : ∃ p0 rest, people = p0 :: rest := by
    cases hp : people with
    | nil => rw [hp] at hpos; cases hpos
    | cons x rest => exact ⟨x, rest, rfl⟩
  have hmod : (0 + (k + 1)) % people.length = k + 1 := by
    rw [Nat.zero_add]
    exact Nat.mod_eq_of_lt (by omega)
  have hstep := quickPairs_cons people (k + 1) 0 p0 rest ∅ hpos
  rw [if_neg Finmap.not_mem_empty, if_neg Finmap.not_mem_empty, ← hpeople] at hstep
  have hpk : people[k + 1]? =
      some (people.get ⟨(0 + (k + 1)) % people.length, Nat.mod_lt _ hpos⟩) := by
    have hidx : people[k + 1]? = people[(0 + (k + 1)) % people.length]? := by rw [hmod]
    rw [hidx, List.getElem?_eq_getElem (Nat.mod_lt _ hpos)]
    rfl
  refine ⟨(List.range' 1 (people.length - 1)).map (fun n => quickPairs people n 0 people ∅),
    quickPairs people (k + 1) 0 people ∅, p0,
    people.get ⟨(0 + (k + 1)) % people.length, Nat.mod_lt _ hpos⟩, ?_, ?_, ?_, hpk, ?_, ?_, ?_⟩
  · rw [QuickMatch, if_neg h0]
  · rw [List.getElem?_map, List.getElem?_range' 1 1 hk]
    simp [Nat.add_comm]
  · rw [hpeople]; simp
  · rw [hstep]
    apply quickPairs_preserves
    rw [lookup_pair]
    by_cases he : p0 = people.get ⟨(0 + (k + 1)) % people.length, Nat.mod_lt _ hpos⟩
    · rw [if_pos he, he]
    · rw [if_neg he, if_pos rfl]
  · rw [hstep]
    apply quickPairs_preserves
    rw [lookup_pair, if_pos rfl]
  · exact quickPairs_form people (k + 1) people 0 ∅ [] rfl rfl
      (fun x y h => by simp at h)

/-- Witness of C20: the six participants `a` to `f` and `k = 1`; the second map
pairs `a` with `c`. -/
theorem QuickMatch_offset_order_witness :
    sixPeople.length % 2 = 0 ∧ 1 < sixPeople.length - 1 ∧
      ∃ ms m p0 pk, QuickMatch sixPeople = .ok ms ∧ ms[1]? = some m ∧
        sixPeople[0]? = some p0 ∧ sixPeople[1 + 1]? = some pk ∧
        m.lookup p0 = some pk ∧ m.lookup pk = some p0 ∧
        ∀ x y, m.lookup x = some y → IsRotationPair sixPeople (1 + 1) x y :=
  ⟨by decide, by decide, QuickMatch_offset_order sixPeople (by decide) 1 (by decide)⟩

/-- C17: the search breaks ties by the order of the input. For an even-length
list of distinct participants and a history for which `Match` returns `M`, no
perfect matching over the participants without a pair recorded in the history
pairs the first participant with somebody who comes earlier in the list than
the partner `M` gives it. And for the participants `a`, `b`, `c`, `d` with the
pairs of `a` with `b` and of `c` with `d` recorded in both directions, the
result is exactly the matching of `a` with `c` and `b` with `d`. -/
theorem Match_tie_break :
    (∀ (people : List α) (history : History α τ) (M c : Result α) (p0 q : α),
        people.head? = some p0 → people.length % 2 = 0 → people.Nodup →
        Match people history ∅ = some ⟨.ok M, c⟩ → M.lookup p0 = some q →
        ∀ M', IsPerfectMatching people M' → NoRepeat history M' →
          ∀ q', M'.lookup p0 = some q' → ¬ people.indexOf q' < people.indexOf q) ∧
      Match ["a", "b", "c", "d"] historyABCD ∅ = some ⟨.ok pairACBD, pairACBD⟩ := by
  refine ⟨?_, by decide⟩
  intro people history M c p0 q hhead heven hnd h hq M' hM' hNR q' hq'
  intro hlt
  obtain ⟨rest, hpeople⟩ : ∃ rest, people = p0 :: rest := by
    cases hp : people with
    | nil => rw [hp] at hhead; cases hhead
    | cons x rest =>
      rw [hp] at hhead
      cases hhead
      exact ⟨rest, rfl⟩
  have hp0 : p0 ∈ people := by rw [hpeople]; exact List.mem_cons_self _ _
  have hidx0 : people.indexOf p0 = 0 := by rw [hpeople]; exact List.indexOf_cons_self _ _
  have hemp : p0 ∉ (∅ : Result α) := Finmap.not_mem_empty
  have h1 : ¬ people.length = (∅ : Result α).keys.card := by
    rw [Finmap.keys_empty, Finset.card_empty, hpeople]
    simp
  have h2 : ¬ people.length % 2 ≠ 0 := by omega
  rw [Match, MatchFuel, if_neg h1, if_neg h2] at h
  have h3 : matchOuter (MatchFuel people history people.length) history people people ∅ =
      matchInner (MatchFuel people history people.length) history p0 people ∅ := by
    conv_lhs => rw [hpeople, matchOuter, if_neg hemp, ← hpeople]
  rw [h3] at h
  have hins : ∀ x ∈ people, isCandidate history (∅ : Result α) p0 x = true →
      PairedIn people (((∅ : Result α).insert p0 x).insert x p0) := by
    intro x hx hcx
    have hc' : x ∉ (∅ : Result α) ∧ p0 ≠ x ∧ wasMatched history p0 x = false := by
      simpa [isCandidate, and_assoc] using hcx
    exact pairedIn_insert_pair (pairedIn_empty people) hp0 hx hemp hc'.1 hc'.2.1
  obtain ⟨l1, q1, l2, hsplit, hl, hfail⟩ := matchInner_first
    (MatchFuel_restores people history people.length) history p0 ∅ hemp people
    (by
      intro x hx hcx o sol ho hsol
      have hc' : x ∉ (∅ : Result α) ∧ p0 ≠ x ∧ wasMatched history p0 x = false := by
        simpa [isCandidate, and_assoc] using hcx
      have hnr : ¬ Recorded history p0 x := by
        rw [← wasMatched_iff, hc'.2.2]; simp
      obtain ⟨_, _, _, hext⟩ := MatchFuel_sound people history people.length _ o sol
        (hins x hx hcx)
        (freshForward_insert_pair (freshForward_empty people history) hnr
          (by rw [hidx0]; omega)) ho hsol
      apply hext
      rw [lookup_pair, if_neg hc'.2.1, if_pos rfl])
    _ M h rfl
  rw [hq] at hl
  cases hl
  -- the partner `q'` of the other matching comes before `q`, so it was tried and failed
  have hq'p0 : M'.lookup q' = some p0 := hM'.symm p0 q' hq'
  have hq'm : q' ∈ people := (hM'.keys q').mp (Finmap.mem_of_lookup_eq_some hq'p0)
  have hq'l1 : q' ∈ l1 := by
    by_contra hnot
    have hi1 : (l1 ++ q :: l2).indexOf q' = l1.length + (q :: l2).indexOf q' :=
      List.indexOf_append_of_not_mem hnot
    have hi2 : (l1 ++ q :: l2).indexOf q ≤ l1.length := by
      by_cases hql : q ∈ l1
      · rw [List.indexOf_append_of_mem hql]
        exact List.indexOf_le_length
      · rw [List.indexOf_append_of_not_mem hql, List.indexOf_cons_self]
        exact le_refl _
    rw [hsplit] at hlt
    omega
  have hne : p0 ≠ q' := fun e => hM'.ne p0 q' hq' e.symm
  have hwm : wasMatched history p0 q' = false := by
    cases hw : wasMatched history p0 q' with
    | false => rfl
    | true => exact absurd ((wasMatched_iff history p0 q').mp hw) (hNR p0 q' hq')
  have hcand : isCandidate history (∅ : Result α) p0 q' = true := by
    simp [isCandidate, hne, hwm, Finmap.not_mem_empty]
  obtain ⟨o, e, ho, hoe⟩ := hfail q' hq'l1 hcand
  obtain ⟨sol, hsol⟩ := MatchFuel_complete people history M' heven hnd hM' hNR people.length
    _ (hins q' hq'm hcand)
    (by
      intro k v hkv
      rw [lookup_pair] at hkv
      by_cases hk1 : k = q'
      · rw [if_pos hk1] at hkv
        cases hkv
        rw [hk1]; exact hq'p0
      · rw [if_neg hk1] at hkv
        by_cases hk2 : k = p0
        · rw [if_pos hk2] at hkv
          cases hkv
          rw [hk2]; exact hq'
        · rw [if_neg hk2] at hkv
          simp at hkv)
    (by
      have := unmatched_insert_lt people ∅ p0 q' hp0 hemp
      have := unmatched_le people (∅ : Result α)
      omega)
  rw [ho] at hsol
  cases hsol
  cases hoe

/-- Witness of C17: the participants `a`, `b`, `c`, `d` with the pairs of `a`
with `b` and of `c` with `d` recorded; `a` is paired with `c`, and no matching
without repeats pairs `a` with somebody before `c`. -/
theorem Match_tie_break_witness :
    ["a", "b", "c", "d"].head? = some "a" ∧ ["a", "b", "c", "d"].length % 2 = 0 ∧
      ["a", "b", "c", "d"].Nodup ∧
      Match ["a", "b", "c", "d"] historyABCD ∅ = some ⟨.ok pairACBD, pairACBD⟩ ∧
      pairACBD.lookup "a" = some "c" ∧
      ∀ M', IsPerfectMatching ["a", "b", "c", "d"] M' → NoRepeat historyABCD M' →
        ∀ q', M'.lookup "a" = some q' →
          ¬ ["a", "b", "c", "d"].indexOf q' < ["a", "b", "c", "d"].indexOf "c" :=
  ⟨by decide, by decide, by decide, by decide, by decide,
    (@Match_tie_break String Nat _).1 ["a", "b", "c", "d"] historyABCD pairACBD pairACBD
      "a" "c" (by decide) (by decide) (by decide) (by decide) (by decide)⟩

/-- C14: for four distinct participants `a`, `b`, `c`, `d`, `QuickMatch` returns
exactly three maps, each with four entries, and each ordered pair of distinct
participants (so each of the six unordered pairs, in both directions) is an
entry of exactly one of the three maps. -/
theorem QuickMatch_four (a b c d : α) (hnd : [a, b, c, d].Nodup) :
    ∃ m1 m2 m3, QuickMatch [a, b, c, d] = .ok [m1, m2, m3] ∧
      (m1.keys.card = 4 ∧ m2.keys.card = 4 ∧ m3.keys.card = 4) ∧
      ∀ x ∈ [a, b, c, d], ∀ y ∈ [a, b, c, d], x ≠ y →
        [m1, m2, m3].countP (fun m => decide (m.lookup x = some y)) = 1 := by
  simp only [List.nodup_cons, List.mem_cons, List.mem_singleton, not_or, List.not_mem_nil,
    not_false_eq_true, List.nodup_nil, and_true] at hnd
  obtain ⟨⟨hab, hac, had⟩, ⟨hbc, hbd⟩, hcd⟩ := hnd
  have hba : b ≠ a := fun e => hab e.symm
  have hca : c ≠ a := fun e => hac e.symm
  have hda : d ≠ a := fun e => had e.symm
  have hcb : c ≠ b := fun e => hbc e.symm
  have hdb : d ≠ b := fun e => hbd e.symm
  have hdc : d ≠ c := fun e => hcd e.symm
  have e1 : quickPairs [a, b, c, d] 1 0 [a, b, c, d] ∅ =
      ((((∅ : Result α).insert a b).insert b a).insert c d).insert d c := by
    have s0 := fun ps pair =>
      quickPairs_cons_of_getElem [a, b, c, d] 1 0 a ps pair b (by simp)
    have s1 := fun ps pair =>
      quickPairs_cons_of_getElem [a, b, c, d] 1 1 b ps pair c (by simp)
    have s2 := fun ps pair =>
      quickPairs_cons_of_getElem [a, b, c, d] 1 2 c ps pair d (by simp)
    have s3 := fun ps pair =>
      quickPairs_cons_of_getElem [a, b, c, d] 1 3 d ps pair a (by simp)
    simp [s0, s1, s2, s3, quickPairs_nil, Finmap.mem_insert, Finmap.not_mem_empty, hab, hac, had,
      hbc, hbd, hcd, hba, hca, hda, hcb, hdb, hdc]
  have e2 : quickPairs [a, b, c, d] 2 0 [a, b, c, d] ∅ =
      ((((∅ : Result α).insert a c).insert c a).insert b d).insert d b := by
    have s0 := fun ps pair =>
      quickPairs_cons_of_getElem [a, b, c, d] 2 0 a ps pair c (by simp)
    have s1 := fun ps pair =>
      quickPairs_cons_of_getElem [a, b, c, d] 2 1 b ps pair d (by simp)
    have s2 := fun ps pair =>
      quickPairs_cons_of_getElem [a, b, c, d] 2 2 c ps pair a (by simp)
    have s3 := fun ps pair =>
      quickPairs_cons_of_getElem [a, b, c, d] 2 3 d ps pair b (by simp)
    simp [s0, s1, s2, s3, quickPairs_nil, Finmap.mem_insert, Finmap.not_mem_empty, hab, hac, had,
      hbc, hbd, hcd, hba, hca, hda, hcb, hdb, hdc]
  have e3 : quickPairs [a, b, c, d] 3 0 [a, b, c, d] ∅ =
      ((((∅ : Result α).insert a d).insert d a).insert c b).insert b c := by
    have s0 := fun ps pair =>
      quickPairs_cons_of_getElem [a, b, c, d] 3 0 a ps pair d (by simp)
    have s1 := fun ps pair =>
      quickPairs_cons_of_getElem [a, b, c, d] 3 1 b ps pair a (by simp)
    have s2 := fun ps pair =>
      quickPairs_cons_of_getElem [a, b, c, d] 3 2 c ps pair b (by simp)
    have s3 := fun ps pair =>
      quickPairs_cons_of_getElem [a, b, c, d] 3 3 d ps pair c (by simp)
    simp [s0, s1, s2, s3, quickPairs_nil, Finmap.mem_insert, Finmap.not_mem_empty, hab, hac, had,
      hbc, hbd, hcd, hba, hca, hda, hcb, hdb, hdc]
  refine ⟨((((∅ : Result α).insert a b).insert b a).insert c d).insert d c,
    ((((∅ : Result α).insert a c).insert c a).insert b d).insert d b,
    ((((∅ : Result α).insert a d).insert d a).insert c b).insert b c, ?_, ⟨?_, ?_, ?_⟩, ?_⟩
  · have hq : QuickMatch [a, b, c, d] =
        .ok [quickPairs [a, b, c, d] 1 0 [a, b, c, d] ∅,
          quickPairs [a, b, c, d] 2 0 [a, b, c, d] ∅,
          quickPairs [a, b, c, d] 3 0 [a, b, c, d] ∅] := by
      rw [QuickMatch, if_neg (by simp)]
      rfl
    rw [hq, e1, e2, e3]
  · simp [keys_insert, hab, hac, had, hbc, hbd, hcd, hba, hca, hda, hcb, hdb, hdc]
  · simp [keys_insert, hab, hac, had, hbc, hbd, hcd, hba, hca, hda, hcb, hdb, hdc]
  · simp [keys_insert, hab, hac, had, hbc, hbd, hcd, hba, hca, hda, hcb, hdb, hdc]
  · intro x hx y hy hxy
    simp only [List.mem_cons, List.mem_singleton, List.not_mem_nil, or_false] at hx hy
    rcases hx with rfl | rfl | rfl | rfl <;> rcases hy with rfl | rfl | rfl | rfl <;>
      first
      | exact absurd rfl hxy
      | simp [List.countP_cons, lookup_insert_ite, hab, hac, had, hbc, hbd, hcd, hba, hca, hda,
          hcb, hdb, hdc]

/-- Witness of C14: the participants `a`, `b`, `c`, `d`. -/
theorem QuickMatch_four_witness :
    ["a", "b", "c", "d"].Nodup ∧
      ∃ m1 m2 m3, QuickMatch ["a", "b", "c", "d"] = .ok [m1, m2, m3] ∧
        (m1.keys.card = 4 ∧ m2.keys.card = 4 ∧ m3.keys.card = 4) ∧
        ∀ x ∈ ["a", "b", "c", "d"], ∀ y ∈ ["a", "b", "c", "d"], x ≠ y →
          [m1, m2, m3].countP (fun m => decide (m.lookup x = some y)) = 1 :=
  ⟨by decide, QuickMatch_four "a" "b" "c" "d" (by decide)⟩

end Claims

end CoffeeRoulette
